import Mathlib

/-!
# Verification of the mcpresso OpenAPI-to-server generator

This file embeds the core of the `mcpresso` code-generation pipeline in Lean 4 and
proves (or refutes) the specification claims about it.  The embedded source files are

* `src/cli/generator.ts` — the generator pipeline: `convertZodToOpenAPI`,
  `findUsedSchemas`, `findPrimarySchemaForResource`, `findSchemaForMethod`,
  `groupOperationsByResource`, `groupOperationsByMethod`, `generateResourceCode`
  (its method-slot construction), `generateMethodSpecificSchema`, `getSchemaImports`,
  and the casing utilities `toSnakeCase` / `toValidIdentifier`;
* `src/cli/schema-converter.ts` — the memoised schema converter `convertSchemaToZod`
  with its helpers (`convertObjectSchema`, `convertArraySchema`, `convertUnionSchema`,
  `convertEnumSchema`, `convertStringSchema`, `convertNumberSchema`);
* `src/cli/openapi-parser.ts` — `validateOpenAPI`.

Modelling conventions:

* OpenAPI schema objects are embedded as the inductive `OASchema`, whose constructors
  partition the shapes the source dispatches on (`$ref`, `type: string/number/boolean/
  array/object`, `oneOf`, `anyOf`, `allOf`, or no recognisable type).  Fields the
  embedded functions never read (`example`, vendor extensions, `pattern`/`minLength`/
  `minItems` and similar representation constraints) are outside the data model; each
  embedded function notes where the source would consult such a field.
* Zod schema values are embedded as the inductive `ZodTy`.
* Recursive translation functions take an explicit fuel argument that decreases on
  every recursive call; `none` means the call tree is deeper than the fuel, and a
  source run terminates on an input exactly when some fuel suffices for it.
* JavaScript `Map`s / objects keyed by strings are association lists in insertion
  order (for OpenAPI `responses` objects, whose keys are numeric strings, JavaScript
  iterates integer-like keys in ascending numeric order; theorems that depend on this
  take it as a hypothesis).
-/

/-! ## Character-list string utilities

All string manipulation is done on `List Char` through structurally recursive
functions, so that every definition evaluates by `rfl`/`decide`. -/

/-- `charsStart p s` is true when `p` is a prefix of `s` (JavaScript `startsWith`). -/
def charsStart : List Char → List Char → Bool
  | [], _ => true
  | _ :: _, [] => false
  | p :: ps, c :: cs => p = c && charsStart ps cs

/-- JavaScript `s.startsWith(p)`. -/
def strStarts (s p : String) : Bool := charsStart p.toList s.toList

/-- JavaScript `s.endsWith(p)`. -/
def strEnds (s p : String) : Bool := charsStart p.toList.reverse s.toList.reverse

/-- JavaScript `s.toLowerCase()` (ASCII, which covers all identifiers involved). -/
def lowerStr (s : String) : String := String.mk (s.toList.map Char.toLower)

/-- Split a character list at a separator character (JavaScript `split(sep)`:
an empty input yields `[""]`, like JavaScript). -/
def splitCharAux (sep : Char) : List Char → List Char → List (List Char)
  | [], cur => [cur.reverse]
  | c :: rest, cur =>
    if c = sep then cur.reverse :: splitCharAux sep rest []
    else splitCharAux sep rest (c :: cur)

/-- JavaScript `s.split(sep)` for a single-character separator. -/
def splitChar (sep : Char) (s : String) : List String :=
  (splitCharAux sep s.toList []).map String.mk

/-- JavaScript `path.replace(/^\//, '')`: drop a single leading slash. -/
def stripLeadingSlash (p : String) : String :=
  match p.toList with
  | '/' :: rest => String.mk rest
  | _ => p

/-- `generator.ts` `extractRefName`: last `/`-separated component of the `$ref`
string with every non-alphanumeric character removed
(`lastPart.replace(/[^a-zA-Z0-9]/g, '')`). -/
def extractRefName (ref : String) : String :=
  let parts := splitChar '/' ref
  let lastPart := parts.getLastD ""
  String.mk (lastPart.toList.filter Char.isAlphanum)

/-- `schema-converter.ts` `extractRefName`: last `/`-separated component of the
`$ref` string (no character filtering, unlike the generator's homonym). -/
def extractRefNameSC (ref : String) : String :=
  (splitChar '/' ref).getLastD ""

/-- `generator.ts` `toValidIdentifier`: `name.replace(/[^a-zA-Z0-9_]/g, '_')`. -/
def toValidIdentifier (name : String) : String :=
  String.mk (name.toList.map (fun c => if c.isAlphanum || c = '_' then c else '_'))

/-- A character matched by the `[-_\s]` class in the source's casing regexes. -/
def isSepChar (c : Char) : Bool := c = '-' || c = '_' || c.isWhitespace

/-- Replace every maximal run of `[-_\s]` characters by a single `'_'`
(the `replace(/[-_\s]+/g, '_')` step of `toSnakeCase`); the boolean argument
records whether the previous character was part of such a run. -/
def squashSepsAux : List Char → Bool → List Char
  | [], _ => []
  | c :: rest, inSep =>
    if isSepChar c then
      if inSep then squashSepsAux rest true else '_' :: squashSepsAux rest true
    else c :: squashSepsAux rest false

/-- The `replace(/([A-Z])/g, '_$1')` step of `toSnakeCase`: insert `'_'` before
every uppercase character. -/
def underscoreBeforeUpper (cs : List Char) : List Char :=
  cs.flatMap (fun c => if c.isUpper then ['_', c] else [c])

/-- The `replace(/^_/, '')` step of `toSnakeCase`: drop one leading underscore. -/
def dropLeadU : List Char → List Char
  | '_' :: rest => rest
  | l => l

/-- The `replace(/_$/, '')` step of `toSnakeCase`: drop one trailing underscore. -/
def dropTrailU (l : List Char) : List Char :=
  match l.reverse with
  | '_' :: rest => rest.reverse
  | _ => l

/-- `generator.ts` `toSnakeCase`: insert `_` before capitals, lowercase, drop one
leading `_`, squash separator runs to `_`, drop one trailing `_`. -/
def toSnakeCase (s : String) : String :=
  let s1 := (underscoreBeforeUpper s.toList).map Char.toLower
  let s2 := dropLeadU s1
  let s3 := squashSepsAux s2 false
  let s4 := dropTrailU s3
  String.mk s4

/-! ## Data model -/

/-- An OpenAPI schema object, restricted to the fields the embedded functions read.
The constructors partition the shapes the source code dispatches on; a node carries
exactly one shape (standard OpenAPI usage).  `readOnly` is the source document's
`readOnly: true` flag.  For `obj`, `addProps` models `additionalProperties`:
`none` = absent, `some none` = a boolean value, `some (some s)` = a schema. -/
inductive OASchema where
  | ref (refStr : String)
  | str (format : Option String) (enumVals : Option (List String)) (readOnly : Bool)
  | num (isInt : Bool) (minimum maximum : Option Int) (readOnly : Bool)
  | boolS (readOnly : Bool)
  | arr (items : Option OASchema) (readOnly : Bool)
  | obj (properties : Option (List (String × OASchema))) (required : Option (List String))
        (addProps : Option (Option OASchema)) (readOnly : Bool)
  | oneOfS (members : List OASchema)
  | anyOfS (members : List OASchema)
  | allOfS (members : List OASchema)
  | untyped

/-- A string refinement produced by the converters (`z.string().email()` etc.). -/
inductive StrCheck where
  | datetime | dateRegex | email | url | uuid | ipv4 | ipv6

/-- A Zod schema value, as far as the generator builds and serialises them. -/
inductive ZodTy where
  | zany
  | zstring (check : Option StrCheck)
  | zenum (vals : List String)
  | zliteral (val : String)
  | znumber (isInt : Bool) (lo hi : Option Int)
  | zboolean
  | zarray (item : ZodTy)
  | zobject (shape : List (String × ZodTy)) (passthrough : Bool) (catchall : Option ZodTy)
  | zrecordAny
  | zoptional (t : ZodTy)
  | zreadonly (t : ZodTy)
  | zunion (opts : List ZodTy)
  | zintersection (ms : List ZodTy)
  | zlazy (t : ZodTy)

/-- `schema-converter.ts` `ConvertedSchema` as the generator consumes it: the
`{ name, schema }` record pushed in `generateFromOpenAPI` step 2.  Note that this
wrapper object has none of the OpenAPI fields (`$ref`, `properties`, `items`,
`oneOf`, `anyOf`, `allOf`). -/
structure ConvertedSchema where
  name : String
  schema : ZodTy

/-- One response of an operation. `json` models
`response.content && response.content['application/json']`:
`none` = no such content entry; `some s` = the entry exists and its `schema`
field is `s` (itself optional, since `.schema` may be absent). -/
structure OAResponse where
  json : Option (Option OASchema)

/-- One extracted operation (`openapi-parser.ts` `extractOpenAPIData` produces
`{ method, path, operation }`; `method` is upper-cased there).  `requestJson`
models `operation.requestBody && requestBody.content &&
requestBody.content['application/json']` the same way `OAResponse.json` does.
`responses` is the `operation.responses` object as an insertion-ordered
association list from status-code string to response. -/
structure Operation where
  method : String
  path : String
  requestJson : Option (Option OASchema)
  responses : Option (List (String × OAResponse))

/-- Look a schema name up in the raw `components.schemas` table
(`allSchemas.get(refName)` on the `Map` built in `generateFromOpenAPI`). -/
def lookupRaw (table : List (String × OASchema)) (name : String) : Option OASchema :=
  (table.find? (fun e => e.1 = name)).map (fun e => e.2)

/-- Map a fallible function over a list, failing if any element fails.  This is
how fuel exhaustion propagates out of the fueled translation functions. -/
def optMapList (f : α → Option β) : List α → Option (List β)
  | [] => some []
  | a :: as =>
    match f a with
    | none => none
    | some b => (optMapList f as).map (b :: ·)

/-- Does `required` contain `key` (`openAPISchema.required &&
openAPISchema.required.includes(key)`)?  An absent `required` list means no
property is required. -/
def requiredContains (required : Option (List String)) (key : String) : Bool :=
  match required with
  | some rs => rs.contains key
  | none => false

/-- Build the union value of the generator's default branch: `z.union([...])` for
two or more members, the single member for one, `z.any()` for zero
(`zodSchemas[0] || z.any()`). -/
def mkUnion : List ZodTy → ZodTy
  | [] => .zany
  | [z] => z
  | zs => .zunion zs

/-- Build the intersection value of the generator's `allOf` branch.  The source
passes every converted member to `z.intersection(a, b, ...rest)`; we record all
members (Zod itself would only combine the first two — a library detail outside
the embedded code). -/
def mkIntersection : List ZodTy → ZodTy
  | [] => .zany
  | [z] => z
  | zs => .zintersection zs

/-! ## `generator.ts` `convertZodToOpenAPI`

The conversion the pipeline actually runs on every named schema
(`generateFromOpenAPI`, step 2).  The fuel strictly decreases on every
recursive call; `none` means the recursion is deeper than the fuel.  Note that
the `$ref` branch, when the target name is in the table, recurses into the raw
target schema with **no** visited set, and that the function never reads the
source `readOnly` flags (its `readonly` parameter defaults to `false` at the
single pipeline call site and is only threaded through). -/

def convertZodToOpenAPI : Nat → Option OASchema → List (String × OASchema) → Bool → Option ZodTy
  | 0, _, _, _ => none
  | _ + 1, none, _, _ => some .zany
  | n + 1, some s, table, ro =>
    match s with
    | .ref r =>
      match lookupRaw table (extractRefName r) with
      | some raw => convertZodToOpenAPI n (some raw) table ro
      | none => some (.zlazy (.zobject [] true none))
    | .str format enumVals _ =>
      match enumVals with
      | some vs => some (.zenum vs)
      | none =>
        match format with
        | some "date-time" => some (.zstring (some .datetime))
        | some "date" => some (.zstring (some .dateRegex))
        | some "email" => some (.zstring (some .email))
        | some "uri" => some (.zstring (some .url))
        | _ => some (.zstring none)
    | .num _ lo hi _ => some (.znumber false lo hi)
    | .boolS _ => some .zboolean
    | .arr items _ =>
      match items with
      | some it => (convertZodToOpenAPI n (some it) table ro).map .zarray
      | none => some (.zarray .zany)
    | .obj properties required _ _ =>
      match properties with
      | some props =>
        (optMapList (fun kp =>
            (convertZodToOpenAPI n (some kp.2) table ro).map (fun pz =>
              (kp.1, if requiredContains required kp.1 then pz else ZodTy.zoptional pz)))
          props).map (fun shape =>
            let o := ZodTy.zobject shape false none
            if ro then ZodTy.zreadonly o else o)
      | none => some .zrecordAny
    | .oneOfS ms => (optMapList (fun m => convertZodToOpenAPI n (some m) table ro) ms).map mkUnion
    | .anyOfS ms => (optMapList (fun m => convertZodToOpenAPI n (some m) table ro) ms).map mkUnion
    | .allOfS ms =>
      (optMapList (fun m => convertZodToOpenAPI n (some m) table ro) ms).map mkIntersection
    | .untyped => some .zany

/-- `generateFromOpenAPI` step 2: convert every named schema with
`convertZodToOpenAPI`; a conversion that fails (in the source: throws — for a
cyclic schema graph, by exhausting the call stack) is caught and the schema is
skipped, so it yields no `{name, schema}` entry. -/
def convertAllSchemas (fuel : Nat) (table : List (String × OASchema)) : List ConvertedSchema :=
  table.filterMap (fun nr =>
    (convertZodToOpenAPI fuel (some nr.2) table false).map (fun z => ⟨nr.1, z⟩))

/-! ## Claim C1: cycle safety of the translation the pipeline runs

The claim: translation terminates and yields a value for every named schema,
even for self-referential or mutually-cyclic schema graphs.  The schema graph
below is the minimal self-reference the claim quotes: schema `A` has a property
`self` that is `$ref`-ed back to `A`. -/

/-- The raw schema `A` of the C1 failing input:
`{ type: "object", properties: { self: { $ref: "#/components/schemas/A" } } }`. -/
def rawSelfRefA : OASchema :=
  .obj (some [("self", .ref "#/components/schemas/A")]) none none false

/-- The C1 schema table: `components.schemas = { A: rawSelfRefA }`. -/
def tableC1 : List (String × OASchema) := [("A", rawSelfRefA)]

theorem lookupRaw_tableC1 : lookupRaw tableC1 "A" = some rawSelfRefA := rfl

theorem extractRefName_A : extractRefName "#/components/schemas/A" = "A" := rfl

/-- **C1** (code bug).  The translation the pipeline runs on named schemas,
`convertZodToOpenAPI`, has no visited set: on the self-referential schema `A`
it re-enters itself through the resolved `$ref` and exhausts any fuel, i.e. the
source recursion is unbounded (at runtime: a stack overflow, caught by the
per-schema `try`/`catch`, so schema `A` is skipped and gets no schema value).
This contradicts the claim that translation terminates and produces a schema
value for every named schema of every input graph, and contradicts the visited-
set mechanism described by the spec and actually implemented in
`schema-converter.ts`'s `convertSchemaToZod` — which the generator imports but
does not call for this purpose. -/
theorem c1_translation_diverges_on_self_reference :
    (∀ fuel ro, convertZodToOpenAPI fuel (some rawSelfRefA) tableC1 ro = none) ∧
    convertAllSchemas 1000 tableC1 = [] := by
  have main : ∀ fuel ro, convertZodToOpenAPI fuel (some rawSelfRefA) tableC1 ro = none := by
    intro fuel
    induction fuel using Nat.strong_induction_on with
    | _ n ih =>
      intro ro
      match n with
      | 0 => rfl
      | 1 => rfl
      | (m + 2) =>
        have h : convertZodToOpenAPI m (some rawSelfRefA) tableC1 ro = none :=
          ih m (by omega) ro
        simp only [rawSelfRefA, tableC1] at h
        simp [convertZodToOpenAPI, rawSelfRefA, optMapList, lookupRaw, extractRefName,
          splitChar, splitCharAux, tableC1, h]
  refine ⟨main, ?_⟩
  have h1000 := main 1000 false
  simp [convertAllSchemas, tableC1]
  exact h1000

/-! ## `generator.ts` `findUsedSchemas` (the reachability pruner)

`collectReferencedSchemas` walks a schema value occurring in an operation's
request body or response, accumulating `visited` (the full `$ref` strings seen)
and `usedSchemaNames` (the extracted names).  On a `$ref` node the source also
recurses into `allSchemas.get(schemaName)` — but `allSchemas` maps names to the
**converted** `{ name, schema: ZodTypeAny }` wrapper records, which carry none
of the fields `$ref`/`properties`/`items`/`oneOf`/`anyOf`/`allOf`, so that
recursive call inspects nothing and adds nothing; it is embedded as
contributing nothing.  A `$ref` node itself carries no other fields, and the
source does not traverse `additionalProperties`. -/

mutual
def collectRefs : OASchema → List String × List String → List String × List String
  | .ref r, (visited, used) =>
    if visited.contains r then (visited, used)
    else (visited ++ [r], used ++ [extractRefName r])
  | .arr items _, st =>
    match items with
    | some it => collectRefs it st
    | none => st
  | .obj properties _ _ _, st =>
    match properties with
    | some props => collectRefsProps props st
    | none => st
  | .oneOfS ms, st => collectRefsList ms st
  | .anyOfS ms, st => collectRefsList ms st
  | .allOfS ms, st => collectRefsList ms st
  | .str _ _ _, st => st
  | .num _ _ _ _, st => st
  | .boolS _, st => st
  | .untyped, st => st
def collectRefsProps : List (String × OASchema) → List String × List String → List String × List String
  | [], st => st
  | kp :: rest, st => collectRefsProps rest (collectRefs kp.2 st)
def collectRefsList : List OASchema → List String × List String → List String × List String
  | [], st => st
  | s :: rest, st => collectRefsList rest (collectRefs s st)
end

/-- A top-level `collectReferencedSchemas(schema)` call: the default parameter
gives a fresh `visited` set, while `usedSchemaNames` persists across calls. -/
def collectTop (s : OASchema) (used : List String) : List String :=
  (collectRefs s ([], used)).2

/-- One response's contribution to `usedSchemaNames`: collect from its JSON
schema when the `application/json` entry exists and its `schema` is present. -/
def respCollect (u : List String) (cr : String × OAResponse) : List String :=
  match cr.2.json with
  | some (some s) => collectTop s u
  | _ => u

/-- The names collected from one operation: the request-body JSON schema (when
`requestBody`, its `content` and its `application/json` entry exist and the
entry's `schema` is present), then every response's JSON schema, in order. -/
def usedNamesOfOp (op : Operation) (used : List String) : List String :=
  (op.responses.getD []).foldl respCollect
    (match op.requestJson with
     | some (some s) => collectTop s used
     | _ => used)

/-- The full `usedSchemaNames` set accumulated over all operations. -/
def usedNames (operations : List Operation) : List String :=
  operations.foldl (fun u op => usedNamesOfOp op u) []

/-- `generator.ts` `findUsedSchemas`: keep exactly the converted schemas whose
name was collected. -/
def findUsedSchemas (operations : List Operation) (schemas : List ConvertedSchema) :
    List ConvertedSchema :=
  schemas.filter (fun s => (usedNames operations).contains s.name)

/-! ### The specification's reachability relation

The spec's traversal rule for the pruner: from a starting schema follow
`reference` edges, object property edges, array `items` edges, and
union/intersection member edges, transitively. -/

mutual
/-- All `$ref` strings occurring syntactically in a schema, following object
property, array items and union/intersection member edges (no named-schema
indirection). -/
def subRefs : OASchema → List String
  | .ref r => [r]
  | .arr items _ =>
    match items with
    | some it => subRefs it
    | none => []
  | .obj properties _ _ _ =>
    match properties with
    | some props => subRefsProps props
    | none => []
  | .oneOfS ms => subRefsList ms
  | .anyOfS ms => subRefsList ms
  | .allOfS ms => subRefsList ms
  | .str _ _ _ => []
  | .num _ _ _ _ => []
  | .boolS _ => []
  | .untyped => []
def subRefsProps : List (String × OASchema) → List String
  | [] => []
  | kp :: rest => subRefs kp.2 ++ subRefsProps rest
def subRefsList : List OASchema → List String
  | [] => []
  | s :: rest => subRefs s ++ subRefsList rest
end

/-- Add a name to a set represented as a duplicate-free list. -/
def insertName (l : List String) (n : String) : List String :=
  if l.contains n then l else l ++ [n]

/-- The schema names a raw schema definition references directly. -/
def schemaRefNames (s : OASchema) : List String := (subRefs s).map extractRefName

/-- One expansion step of the spec's reachability closure over the raw schema
table: add every name directly referenced from an already-reached name. -/
def reachStep (table : List (String × OASchema)) (names : List String) : List String :=
  names.foldl (fun acc n =>
    match lookupRaw table n with
    | some s => (schemaRefNames s).foldl insertName acc
    | none => acc) names

/-- Iterate a function `n` times. -/
def iterateN (f : α → α) : Nat → α → α
  | 0, a => a
  | n + 1, a => iterateN f n (f a)

/-- The spec's set of schema names transitively reachable from the root names
(iterating one more step than there are table entries reaches the closure). -/
def reachableNames (table : List (String × OASchema)) (roots : List String) : List String :=
  iterateN (reachStep table) (table.length + 1) roots

/-! ## Claim C2: reachability pruning is not transitive through named schemas

Failing input: schema `A` is an object whose property `b` is `$ref B`; schema
`B` is a plain object; one operation's `200` response is `$ref A`.  `B` is
transitively reachable from the operation (via `A`'s property edge and `B`'s
reference edge), so the claim requires `B` to be kept — but
`collectReferencedSchemas` recurses into the converted wrapper for `A` instead
of `A`'s raw definition, finds no fields there, and never reaches `B`. -/

/-- Raw schema `B`: `{ type: "object", properties: { x: { type: "string" } } }`. -/
def rawB : OASchema := .obj (some [("x", .str none none false)]) none none false

/-- Raw schema `A`: `{ type: "object", properties: { b: { $ref: "#/components/schemas/B" } } }`. -/
def rawA : OASchema := .obj (some [("b", .ref "#/components/schemas/B")]) none none false

/-- The C2 raw schema table. -/
def rawTableC2 : List (String × OASchema) := [("A", rawA), ("B", rawB)]

/-- The C2 operation: `GET /as` whose `200` response is `$ref A`. -/
def opC2 : Operation :=
  { method := "GET", path := "/as", requestJson := none,
    responses := some [("200", ⟨some (some (.ref "#/components/schemas/A"))⟩)] }

/-- **C2** (code bug).  On the failing input the pruner keeps only `A` — the
schemas whose `$ref` appears syntactically inside an operation's own
request/response schema — although `B` is transitively reachable from the
operation's response schema in the specification's sense.  The recursion that
was meant to make the collection transitive receives the converted
`{ name, schema }` wrapper instead of the raw schema definition and therefore
never follows `A`'s property edge to `B`. -/
theorem c2_prune_misses_transitive_references :
    (findUsedSchemas [opC2] (convertAllSchemas 10 rawTableC2)).map (fun s => s.name) = ["A"] ∧
    "B" ∈ reachableNames rawTableC2 ["A"] := by
  constructor
  · rfl
  · decide

/-! ## `generator.ts` `findPrimarySchemaForResource` -/

/-- The pervasive early-return pattern of the source: the first operand if it
is `some`, else the second. -/
def orO : Option α → Option α → Option α
  | some x, _ => some x
  | none, b => b

@[simp] theorem orO_some (x : α) (b : Option α) : orO (some x) b = some x := rfl

@[simp] theorem orO_none (b : Option α) : orO none b = b := rfl

@[simp] theorem orO_none_right (a : Option α) : orO a none = a := by cases a <;> rfl

/-- Is a name present in the converted schema list (`allSchemas.has(name)` on
the `Map` keyed by converted-schema name)? -/
def hasName (schemas : List ConvertedSchema) (n : String) : Bool :=
  schemas.any (fun s => s.name = n)

/-- `extractSchemaFromRef`: the name of a direct `$ref`, if any. -/
def extractSchemaFromRef : Option OASchema → Option String
  | some (.ref r) => some (extractRefName r)
  | _ => none

/-- `extractSchemaFromArray`: the name of the `$ref` in an array schema's
`items`, if any. -/
def extractSchemaFromArray : Option OASchema → Option String
  | some (.arr items _) =>
    match items with
    | some it => extractSchemaFromRef (some it)
    | none => none
  | _ => none

/-- `extractSchemaFromUnion`: the names of the direct `$ref` members of a
`oneOf`/`anyOf` (in member order; `oneOf` takes precedence in the source). -/
def extractSchemaFromUnion : Option OASchema → List String
  | some (.oneOfS ms) => ms.filterMap (fun m => extractSchemaFromRef (some m))
  | some (.anyOfS ms) => ms.filterMap (fun m => extractSchemaFromRef (some m))
  | _ => []

/-- The three checks the source runs on one response's JSON schema, in order:
direct reference (if known), array of reference (if known), first union member
whose reference is known.  Both the `200` branch and the `2xx` fallback branch
of `findPrimarySchemaForResource` perform exactly this sequence. -/
def tryChecks (schemas : List ConvertedSchema) (s? : Option OASchema) : Option String :=
  orO ((extractSchemaFromRef s?).bind (fun n => if hasName schemas n then some n else none))
    (orO ((extractSchemaFromArray s?).bind (fun n => if hasName schemas n then some n else none))
      ((extractSchemaFromUnion s?).find? (fun m => hasName schemas m)))

/-- `responses[code] && responses[code].content &&
responses[code].content['application/json']`, then its `schema` field. -/
def respJson (resps : List (String × OAResponse)) (code : String) : Option (Option OASchema) :=
  match resps.find? (fun e => e.1 = code) with
  | some e => e.2.json
  | none => none

/-- Run the three checks on a `content['application/json']` entry when it
exists (on its possibly-absent `schema` field), as both branches of the source
do. -/
def jsonTry (schemas : List ConvertedSchema) (j : Option (Option OASchema)) : Option String :=
  match j with
  | some s? => tryChecks schemas s?
  | none => none

/-- The per-operation body of `findPrimarySchemaForResource`: the three checks
on the `200` response, else the first hit over the other responses whose
status-code string starts with `"2"`, in the iteration order of the
`responses` object. -/
def primaryFromOp (schemas : List ConvertedSchema) (op : Operation) : Option String :=
  match op.responses with
  | none => none
  | some resps =>
    orO (jsonTry schemas (respJson resps "200"))
      (resps.findSome? (fun e =>
        if strStarts e.1 "2" && e.1 != "200" then jsonTry schemas e.2.json else none))

/-- `generator.ts` `findPrimarySchemaForResource`: the first operation (in
order) for which the per-operation selection finds a name. -/
def findPrimarySchemaForResource : List Operation → List ConvertedSchema → Option String
  | [], _ => none
  | op :: rest, schemas =>
    orO (primaryFromOp schemas op) (findPrimarySchemaForResource rest schemas)

/-! ### The specification's tie-break order (claim C5) -/

/-- The claim's candidate references of one response schema, in tie-break
order: (a) the directly-referenced schema, (b) the array-of-referenced-schema,
(c) the union members' references in member order. -/
def respCandidates (s? : Option OASchema) : List String :=
  (extractSchemaFromRef s?).toList ++ (extractSchemaFromArray s?).toList ++
    extractSchemaFromUnion s?

/-- The first candidate of a response schema whose reference is known: the
specification's reading of checks (a)–(c). -/
def pickKnown (schemas : List ConvertedSchema) (s? : Option OASchema) : Option String :=
  (respCandidates s?).find? (fun n => hasName schemas n)

/-- `pickKnown`, applied to a `content['application/json']` entry when present. -/
def jsonPick (schemas : List ConvertedSchema) (j : Option (Option OASchema)) : Option String :=
  match j with
  | some s? => pickKnown schemas s?
  | none => none

/-- The numeric value of a status-code string of digits. -/
def codeVal (s : String) : Nat :=
  s.toList.foldl (fun a c => a * 10 + (c.toNat - 48)) 0

/-- A three-character status-code string of digits. -/
def threeDigitCode (s : String) : Bool :=
  s.toList.length = 3 && s.toList.all Char.isDigit

/-- A status code of the form `2xx`: the character `2` followed by two digits. -/
def is2xxCode (s : String) : Bool :=
  match s.toList with
  | [a, b, c] => a = '2' && b.isDigit && c.isDigit
  | _ => false

/-- The primary-schema selection exactly as the specification words it: the
three checks (a)–(c) on the `200` response, then the same three checks on every
other `2xx` response; the response list is taken in its iteration order, which
the accompanying theorem requires to be ascending in status code. -/
def primarySchemaSpec (op : Operation) (schemas : List ConvertedSchema) : Option String :=
  match op.responses with
  | none => none
  | some resps =>
    orO (jsonPick schemas (respJson resps "200"))
      ((resps.filter (fun e => is2xxCode e.1 && e.1 != "200")).findSome? (fun e =>
        jsonPick schemas e.2.json))

theorem find?_some_of_hasName (schemas : List ConvertedSchema) (n : String) :
    (if hasName schemas n then some n else none) =
      [n].find? (fun m => hasName schemas m) := by
  by_cases h : hasName schemas n <;> simp [List.find?, h]

theorem tryChecks_eq_pickKnown (schemas : List ConvertedSchema) (s? : Option OASchema) :
    tryChecks schemas s? = pickKnown schemas s? := by
  unfold tryChecks pickKnown respCandidates
  cases hr : extractSchemaFromRef s? with
  | some n =>
    by_cases h : hasName schemas n
    · simp [Option.bind, h, List.find?]
    · cases ha : extractSchemaFromArray s? with
      | some m =>
        by_cases hm : hasName schemas m <;>
          simp [Option.bind, h, hm, List.find?]
      | none => simp [Option.bind, h, List.find?]
  | none =>
    cases ha : extractSchemaFromArray s? with
    | some m =>
      by_cases hm : hasName schemas m <;>
        simp [Option.bind, hm, List.find?]
    | none => simp [Option.bind]

theorem jsonTry_eq_jsonPick (schemas : List ConvertedSchema) (j : Option (Option OASchema)) :
    jsonTry schemas j = jsonPick schemas j := by
  cases j with
  | some s? => exact tryChecks_eq_pickKnown schemas s?
  | none => rfl

theorem findSome?_filter_guard (p : α → Bool) (f : α → Option β) (l : List α) :
    (l.filter p).findSome? f = l.findSome? (fun a => if p a then f a else none) := by
  induction l with
  | nil => rfl
  | cons a as ih =>
    by_cases h : p a <;> simp [List.filter, List.findSome?, h, ih]

theorem findSome?_congr_mem (f g : α → Option β) (l : List α)
    (h : ∀ a ∈ l, f a = g a) : l.findSome? f = l.findSome? g := by
  induction l with
  | nil => rfl
  | cons a as ih =>
    simp only [List.findSome?]
    rw [h a (by simp)]
    cases g a with
    | none => exact ih (fun a ha => h a (by simp [ha]))
    | some b => rfl

theorem strStarts_two_of_threeDigit (s : String) (h : threeDigitCode s = true) :
    strStarts s "2" = is2xxCode s := by
  simp only [threeDigitCode, Bool.and_eq_true, decide_eq_true_eq] at h
  obtain ⟨hlen, hdig⟩ := h
  simp only [strStarts, is2xxCode]
  match hm : s.toList with
  | [a, b, c] =>
    have hb : b.isDigit = true := by
      rw [hm] at hdig; simp only [List.all_eq_true] at hdig; exact hdig b (by simp)
    have hc : c.isDigit = true := by
      rw [hm] at hdig; simp only [List.all_eq_true] at hdig; exact hdig c (by simp)
    show charsStart ['2'] [a, b, c] = _
    simp [charsStart, hb, hc, eq_comm]
  | [] => rw [hm] at hlen; simp at hlen
  | [a] => rw [hm] at hlen; simp at hlen
  | [a, b] => rw [hm] at hlen; simp at hlen
  | a :: b :: c :: d :: rest => rw [hm] at hlen; simp at hlen

/-- **C5** (confirmed).  For an operation whose `responses` object has
three-digit numeric status-code keys in ascending order (which is how
JavaScript iterates integer-like object keys), the source's primary-schema
selection coincides with the specification's tie-break order: (a) the `200`
response's directly-referenced schema, (b) its array-of-referenced-schema,
(c) the first member of its union whose reference is known, then (d) the same
three checks over every other `2xx` response in ascending status-code order. -/
theorem c5_primary_schema_tie_break (op : Operation) (schemas : List ConvertedSchema)
    (hkeys : ∀ e ∈ op.responses.getD [], threeDigitCode e.1 = true)
    (_hsorted : (op.responses.getD []).Pairwise (fun a b => codeVal a.1 ≤ codeVal b.1)) :
    findPrimarySchemaForResource [op] schemas = primarySchemaSpec op schemas := by
  show orO (primaryFromOp schemas op) (findPrimarySchemaForResource [] schemas) = _
  rw [show findPrimarySchemaForResource [] schemas = none from rfl, orO_none_right]
  unfold primaryFromOp primarySchemaSpec
  cases hres : op.responses with
  | none => rfl
  | some resps =>
    rw [hres] at hkeys
    simp only [Option.getD_some] at hkeys
    dsimp only
    rw [jsonTry_eq_jsonPick, findSome?_filter_guard]
    congr 1
    apply findSome?_congr_mem
    intro e he
    rw [strStarts_two_of_threeDigit e.1 (hkeys e he), jsonTry_eq_jsonPick]

/-- The C5 witness operation, straight from the spec's test property: the `200`
response is an array of `Widget`, the `201` response is a bare `Widget`. -/
def opC5 : Operation :=
  { method := "GET", path := "/widgets", requestJson := none,
    responses := some
      [("200", ⟨some (some (.arr (some (.ref "#/components/schemas/Widget")) false))⟩),
       ("201", ⟨some (some (.ref "#/components/schemas/Widget"))⟩)] }

/-- The C5 converted-schema table containing `Widget`. -/
def schemasC5 : List ConvertedSchema :=
  [⟨"Widget", .zobject [("id", .zstring none)] false none⟩]

/-- Witness for C5: at the spec's own test input the theorem applies and the
selected primary schema is `Widget`, via the array-unwrap rule on the `200`
response. -/
theorem c5_witness :
    findPrimarySchemaForResource [opC5] schemasC5 = primarySchemaSpec opC5 schemasC5 ∧
    findPrimarySchemaForResource [opC5] schemasC5 = some "Widget" :=
  ⟨c5_primary_schema_tie_break opC5 schemasC5 (by decide) (by decide), by rfl⟩

/-! ## `generator.ts` `groupOperationsByResource` (claim C6) -/

/-- `path.replace(/^\//, '').split('/')`. -/
def pathParts (p : String) : List String := splitChar '/' (stripLeadingSlash p)

/-- The path-shape dispatch of `groupOperationsByResource`: one segment → that
segment; `seg/{param}` → the segment; `seg/{param}/seg2/...` → `seg_seg2`;
`seg/seg2/{param}/...` → `seg_seg2`; anything else → the first segment; all
lower-cased. -/
def rawResourceName (parts : List String) : String :=
  if parts.length = 1 then lowerStr (parts.headD "")
  else if parts.length = 2 ∧ strStarts (parts.getD 1 "") "\x7b" then lowerStr (parts.headD "")
  else if 3 ≤ parts.length ∧ strStarts (parts.getD 1 "") "\x7b" ∧
      ¬ strStarts (parts.getD 2 "") "\x7b" then
    lowerStr (parts.headD "" ++ "_" ++ parts.getD 2 "")
  else if 3 ≤ parts.length ∧ strStarts (parts.getD 2 "") "\x7b" then
    lowerStr (parts.headD "" ++ "_" ++ parts.getD 1 "")
  else lowerStr (parts.headD "")

/-- The resource key a path is grouped under: the path-shape name, snake-cased,
then sanitised to a valid identifier (in the source:
`toValidIdentifier(toSnakeCase(resourceName))`). -/
def resourceKeyOfPath (p : String) : String :=
  toValidIdentifier (toSnakeCase (rawResourceName (pathParts p)))

/-- The "problematic resource names" the source skips with a warning. -/
def skipKey (k : String) : Bool := k = "resource" || k = "api" || k = ""

/-- Append an operation to the group of its key, keeping JavaScript object
insertion order: an existing key keeps its position, a new key goes last. -/
def addToGroups (gs : List (String × List Operation)) (k : String) (op : Operation) :
    List (String × List Operation) :=
  if gs.any (fun e => e.1 = k) then
    gs.map (fun e => if e.1 = k then (e.1, e.2 ++ [op]) else e)
  else gs ++ [(k, [op])]

/-- `generator.ts` `groupOperationsByResource`. -/
def groupOperationsByResource (ops : List Operation) : List (String × List Operation) :=
  ops.foldl (fun gs op =>
    let key := resourceKeyOfPath op.path
    if skipKey key then gs else addToGroups gs key op) []

/-! ### String-segment lemmas for the general grouping rule -/

/-- A plain lower-case alphanumeric path segment: nonempty, every character
alphanumeric, lower-case-stable, not upper-case, not a separator, not `/`,
not `{`. -/
def segOkChar (ch : Char) : Bool :=
  ch.isAlphanum && ch.toLower = ch && !ch.isUpper && !isSepChar ch &&
    ch ≠ '/' && ch ≠ '{'

/-- A plain lower-case alphanumeric path segment. -/
def plainSeg (s : String) : Bool := s ≠ "" && s.toList.all segOkChar

/-- A parameter segment: starts with `{` and contains no `/`. -/
def paramSeg (s : String) : Bool :=
  strStarts s "\x7b" && s.toList.all (fun ch => ch ≠ '/')

theorem eq_empty_of_toList_nil (s : String) (h : s.toList = []) : s = "" := by
  cases s with
  | mk data =>
    simp only [String.toList] at h
    simp [h]

theorem mk_toList (s : String) : String.mk s.toList = s := rfl

theorem toList_append (s t : String) : (s ++ t).toList = s.toList ++ t.toList :=
  String.data_append s t

theorem splitCharAux_no_sep (sep : Char) (xs : List Char) (acc : List Char)
    (h : ∀ c ∈ xs, c ≠ sep) :
    splitCharAux sep xs acc = [acc.reverse ++ xs] := by
  induction xs generalizing acc with
  | nil => simp [splitCharAux]
  | cons x xt ih =>
    have hx : x ≠ sep := h x (by simp)
    simp only [splitCharAux, if_neg hx]
    rw [ih (x :: acc) (fun c hc => h c (by simp [hc]))]
    simp

theorem splitCharAux_append (sep : Char) (xs ys : List Char) (acc : List Char)
    (h : ∀ c ∈ xs, c ≠ sep) :
    splitCharAux sep (xs ++ sep :: ys) acc =
      (acc.reverse ++ xs) :: splitCharAux sep ys [] := by
  induction xs generalizing acc with
  | nil => simp [splitCharAux]
  | cons x xt ih =>
    have hx : x ≠ sep := h x (by simp)
    simp only [List.cons_append, splitCharAux, if_neg hx, List.append_eq]
    rw [ih (x :: acc) (fun c hc => h c (by simp [hc]))]
    simp

theorem pathParts_three (a b c : String)
    (ha : ∀ ch ∈ a.toList, ch ≠ '/') (hb : ∀ ch ∈ b.toList, ch ≠ '/')
    (hc : ∀ ch ∈ c.toList, ch ≠ '/') :
    pathParts ("/" ++ a ++ "/" ++ b ++ "/" ++ c) = [a, b, c] := by
  have hdata : ("/" ++ a ++ "/" ++ b ++ "/" ++ c).toList =
      '/' :: (a.toList ++ '/' :: (b.toList ++ '/' :: c.toList)) := by
    simp [toList_append]
  unfold pathParts stripLeadingSlash
  rw [hdata]
  show splitChar '/' (String.mk (a.toList ++ '/' :: (b.toList ++ '/' :: c.toList))) = _
  unfold splitChar
  show (splitCharAux '/' (a.toList ++ '/' :: (b.toList ++ '/' :: c.toList)) []).map
      String.mk = _
  rw [splitCharAux_append '/' _ _ [] ha, splitCharAux_append '/' _ _ [] hb,
    splitCharAux_no_sep '/' _ [] hc]
  simp [mk_toList]

theorem map_toLower_fixed (l : List Char) (h : ∀ ch ∈ l, ch.toLower = ch) :
    l.map Char.toLower = l := by
  induction l with
  | nil => rfl
  | cons x xt ih =>
    simp only [List.map_cons, h x (by simp), ih (fun ch hc => h ch (by simp [hc]))]

theorem lowerStr_fixed (s : String) (h : ∀ ch ∈ s.toList, ch.toLower = ch) :
    lowerStr s = s := by
  unfold lowerStr
  rw [map_toLower_fixed s.toList h, mk_toList]

theorem underscoreBeforeUpper_fixed (l : List Char) (h : ∀ ch ∈ l, ch.isUpper = false) :
    underscoreBeforeUpper l = l := by
  induction l with
  | nil => rfl
  | cons x xt ih =>
    have hx := h x (by simp)
    have ih' := ih (fun ch hc => h ch (by simp [hc]))
    simp only [underscoreBeforeUpper] at ih'
    simp only [underscoreBeforeUpper, List.flatMap_cons]
    rw [ih']
    simp [hx]

theorem squashSepsAux_no_sep (l : List Char) (b : Bool)
    (h : ∀ ch ∈ l, isSepChar ch = false) : squashSepsAux l b = l := by
  induction l generalizing b with
  | nil => rfl
  | cons x xt ih =>
    have hx := h x (by simp)
    simp only [squashSepsAux, hx, Bool.false_eq_true, if_false]
    rw [ih false (fun ch hc => h ch (by simp [hc]))]

theorem squashSepsAux_mid_underscore (xs ys : List Char)
    (hxs : ∀ ch ∈ xs, isSepChar ch = false) (hys : ∀ ch ∈ ys, isSepChar ch = false) :
    squashSepsAux (xs ++ '_' :: ys) false = xs ++ '_' :: ys := by
  induction xs with
  | nil =>
    simp only [List.nil_append, squashSepsAux]
    rw [if_pos (by simp [isSepChar]), if_neg (by simp)]
    rw [squashSepsAux_no_sep ys true hys]
  | cons x xt ih =>
    have hx := hxs x (by simp)
    simp only [List.cons_append, squashSepsAux, hx, Bool.false_eq_true, if_false,
      List.append_eq]
    rw [ih (fun ch hc => hxs ch (by simp [hc]))]

theorem map_keepAlnum_fixed (l : List Char)
    (h : ∀ ch ∈ l, ch.isAlphanum = true ∨ ch = '_') :
    l.map (fun c => if c.isAlphanum || c = '_' then c else '_') = l := by
  induction l with
  | nil => rfl
  | cons x xt ih =>
    have hx := h x (by simp)
    have hcond : (x.isAlphanum || x = '_') = true := by
      rcases hx with h1 | h1 <;> simp [h1]
    simp only [List.map_cons, hcond]
    rw [ih (fun ch hc => h ch (by simp [hc]))]
    simp

theorem toValidIdentifier_fixed (s : String)
    (h : ∀ ch ∈ s.toList, ch.isAlphanum = true ∨ ch = '_') :
    toValidIdentifier s = s := by
  unfold toValidIdentifier
  rw [map_keepAlnum_fixed s.toList h, mk_toList]

theorem segOkChar_props (ch : Char) (h : segOkChar ch = true) :
    ch.isAlphanum = true ∧ ch.toLower = ch ∧ ch.isUpper = false ∧ isSepChar ch = false ∧
      ch ≠ '/' ∧ ch ≠ '{' := by
  simp only [segOkChar, Bool.and_eq_true, decide_eq_true_eq, Bool.not_eq_true'] at h
  tauto

theorem ne_underscore_of_not_sep (ch : Char) (h : isSepChar ch = false) : ch ≠ '_' := by
  intro he
  subst he
  simp [isSepChar] at h

theorem toList_ne_nil_of_ne_empty (s : String) (h : s ≠ "") : s.toList ≠ [] :=
  fun hn => h (eq_empty_of_toList_nil s hn)

theorem dropLeadU_cons_ne (x : Char) (l : List Char) (hx : x ≠ '_') :
    dropLeadU (x :: l) = x :: l := by
  unfold dropLeadU
  split
  · next rest heq =>
    injection heq with h1 _
    exact absurd h1 hx
  · rfl

theorem dropTrailU_of_no_underscore_suffix (l : List Char)
    (h : ∀ rest, l.reverse ≠ '_' :: rest) : dropTrailU l = l := by
  unfold dropTrailU
  split
  · next rest heq => exact absurd heq (h rest)
  · rfl

theorem toSnakeCase_eq (s : String) :
    toSnakeCase s = String.mk (dropTrailU (squashSepsAux (dropLeadU
      ((underscoreBeforeUpper s.toList).map Char.toLower)) false)) := rfl

theorem strStarts_brace_false (s : String) (hp : plainSeg s = true) :
    strStarts s "\x7b" = false := by
  simp only [plainSeg, Bool.and_eq_true, decide_eq_true_eq, ne_eq,
    List.all_eq_true] at hp
  obtain ⟨hne, hall⟩ := hp
  simp only [strStarts]
  match hm : s.toList with
  | [] => exact absurd (eq_empty_of_toList_nil s hm) hne
  | ch :: rest =>
    have hch := segOkChar_props ch (hall ch (by rw [hm]; simp))
    show charsStart ['{'] (ch :: rest) = false
    have hne2 : ('{' = ch) = False := by
      simp only [eq_iff_iff, iff_false]
      exact fun h => hch.2.2.2.2.2 h.symm
    simp [charsStart, hne2]

/-- The C6 operations: `GET /users`, `GET /users/{id}`, `GET /users/{id}/orders`. -/
def opsC6 : List Operation :=
  [⟨"GET", "/users", none, none⟩,
   ⟨"GET", "/users/{id}", none, none⟩,
   ⟨"GET", "/users/{id}/orders", none, none⟩]

/-- **C6** (confirmed).  First conjunct: on the spec's test paths `/users`,
`/users/{id}`, `/users/{id}/orders`, grouping produces exactly the two resource
keys `users` and `users_orders`, in that order.  Second conjunct, the general
rule: for any path `/<a>/<b>/<c>` whose outer and inner segments `a`, `c` are
plain lower-case alphanumeric segments and whose middle segment `b` is a
`{`-parameter, the computed resource key is `a_c` — the outer and inner static
segments joined by an underscore. -/
theorem c6_resource_grouping :
    ((groupOperationsByResource opsC6).map (fun g => g.1) = ["users", "users_orders"]) ∧
    (∀ a b c : String, plainSeg a = true → paramSeg b = true → plainSeg c = true →
      resourceKeyOfPath ("/" ++ a ++ "/" ++ b ++ "/" ++ c) = a ++ "_" ++ c) := by
  constructor
  · rfl
  · intro a b c hpa hpb hpc
    have hpa' := hpa; have hpc' := hpc
    simp only [plainSeg, Bool.and_eq_true, decide_eq_true_eq, ne_eq,
      List.all_eq_true] at hpa' hpc'
    obtain ⟨hane, haall⟩ := hpa'
    obtain ⟨hcne, hcall⟩ := hpc'
    simp only [paramSeg, Bool.and_eq_true, List.all_eq_true, decide_eq_true_eq] at hpb
    obtain ⟨hbstart, hbslash⟩ := hpb
    have haprops := fun ch hc => segOkChar_props ch (haall ch hc)
    have hcprops := fun ch hc => segOkChar_props ch (hcall ch hc)
    have hparts : pathParts ("/" ++ a ++ "/" ++ b ++ "/" ++ c) = [a, b, c] :=
      pathParts_three a b c (fun ch hc => (haprops ch hc).2.2.2.2.1) hbslash
        (fun ch hc => (hcprops ch hc).2.2.2.2.1)
    have hbrace : strStarts c "\x7b" = false := strStarts_brace_false c hpc
    have hraw : rawResourceName [a, b, c] = lowerStr (a ++ "_" ++ c) := by
      unfold rawResourceName
      rw [if_neg (by simp), if_neg (by simp),
        if_pos ⟨by simp, by simpa using hbstart, by simp [hbrace]⟩]
      simp
    have hlist : (a ++ "_" ++ c).toList = a.toList ++ '_' :: c.toList := by
      simp [toList_append]
    have hchars : ∀ ch ∈ a.toList ++ '_' :: c.toList,
        ch.toLower = ch ∧ ch.isUpper = false ∧ (ch.isAlphanum = true ∨ ch = '_') := by
      intro ch hc
      rcases List.mem_append.mp hc with hc1 | hc2
      · have := haprops ch hc1
        exact ⟨this.2.1, this.2.2.1, Or.inl this.1⟩
      · rcases List.mem_cons.mp hc2 with rfl | hc3
        · exact ⟨by decide, by decide, Or.inr rfl⟩
        · have := hcprops ch hc3
          exact ⟨this.2.1, this.2.2.1, Or.inl this.1⟩
    have hmem : ∀ ch ∈ (a ++ "_" ++ c).toList,
        ch.toLower = ch ∧ ch.isUpper = false ∧ (ch.isAlphanum = true ∨ ch = '_') := by
      intro ch hc
      exact hchars ch (by rw [← hlist]; exact hc)
    have hlower : lowerStr (a ++ "_" ++ c) = a ++ "_" ++ c :=
      lowerStr_fixed _ (fun ch hc => (hmem ch hc).1)
    have hsnake : toSnakeCase (a ++ "_" ++ c) = a ++ "_" ++ c := by
      rw [toSnakeCase_eq, hlist]
      rw [underscoreBeforeUpper_fixed _ (fun ch hc => (hchars ch hc).2.1)]
      rw [map_toLower_fixed _ (fun ch hc => (hchars ch hc).1)]
      obtain ⟨ach, arest, harep⟩ : ∃ x xs, a.toList = x :: xs := by
        match hma : a.toList with
        | [] => exact absurd (eq_empty_of_toList_nil a hma) hane
        | x :: xs => exact ⟨x, xs, rfl⟩
      have hach : ach ≠ '_' := by
        have := haprops ach (by rw [harep]; simp)
        exact ne_underscore_of_not_sep ach this.2.2.2.1
      rw [harep, List.cons_append, dropLeadU_cons_ne _ _ hach, ← List.cons_append, ← harep]
      rw [squashSepsAux_mid_underscore a.toList c.toList
        (fun ch hc => (haprops ch hc).2.2.2.1) (fun ch hc => (hcprops ch hc).2.2.2.1)]
      obtain ⟨cch, crest, hcrep⟩ : ∃ x xs, c.toList.reverse = x :: xs := by
        match hmc : c.toList.reverse with
        | [] =>
          have hnil : c.toList = [] := by simpa using congrArg List.reverse hmc
          exact absurd (eq_empty_of_toList_nil c hnil) hcne
        | x :: xs => exact ⟨x, xs, rfl⟩
      have hcch : cch ≠ '_' := by
        have hmemc : cch ∈ c.toList := by
          rw [← List.mem_reverse, hcrep]; simp
        exact ne_underscore_of_not_sep cch (hcprops cch hmemc).2.2.2.1
      rw [dropTrailU_of_no_underscore_suffix _ (by
        intro rest hrev
        rw [List.reverse_append, List.reverse_cons, hcrep] at hrev
        simp only [List.cons_append, List.append_assoc] at hrev
        injection hrev with h1 h2
        exact hcch h1)]
      rw [← hlist, mk_toList]
    have hvalid : toValidIdentifier (a ++ "_" ++ c) = a ++ "_" ++ c := by
      apply toValidIdentifier_fixed
      intro ch hc
      exact (hmem ch hc).2.2
    unfold resourceKeyOfPath
    rw [hparts, hraw, hlower, hsnake, hvalid]

/-- Witness for C6's general rule at the spec's own nested-collection path. -/
theorem c6_witness :
    plainSeg "users" = true ∧ paramSeg "{id}" = true ∧ plainSeg "orders" = true ∧
    resourceKeyOfPath ("/" ++ "users" ++ "/" ++ "{id}" ++ "/" ++ "orders") =
      "users" ++ "_" ++ "orders" :=
  ⟨by decide, by decide, by decide,
    c6_resource_grouping.2 "users" "{id}" "orders" (by decide) (by decide) (by decide)⟩

/-! ## `openapi-parser.ts` `validateOpenAPI` (claim C8) -/

/-- The OpenAPI document as far as `validateOpenAPI` inspects it:
`openapi` is the version string (absent = the field is missing or not a
string), `info` records the presence of the info object, `paths` the path
object (as its list of keys; absent = no `paths` field), and `schemas` the
`components.schemas` object (as its list of keys; absent = no such block). -/
structure SpecDoc where
  openapi : Option String
  info : Bool
  paths : Option (List String)
  schemas : Option (List String)

/-- JavaScript truthiness of `spec.openapi` (an absent field or empty string
is falsy). -/
def openapiTruthy : Option String → Bool
  | none => false
  | some s => s ≠ ""

/-- `validateOpenAPI`'s error list, in push order.  The `verbose`-only advisory
loop over operations (missing `operationId` / `responses`) only logs and never
touches `errors`, and the missing-`components.schemas` check likewise only
logs, so they are not part of the error computation. -/
def validationErrors (d : SpecDoc) : List String :=
  (if !(openapiTruthy d.openapi && match d.openapi with
        | some s => strStarts s "3."
        | none => false) then
    ["OpenAPI specification must be version 3.x"] else []) ++
  (if !d.info then ["OpenAPI specification must have an info object"] else []) ++
  (if d.paths.getD [] = [] then
    ["OpenAPI specification must have at least one path"] else [])

/-- `validateOpenAPI` throws exactly when its error list is nonempty. -/
def validateFails (d : SpecDoc) : Bool := !(validationErrors d).isEmpty

/-- **C8** (confirmed).  The validator fails exactly when the document lacks a
`3.`-prefixed version string, lacks an info block, or has no path entry; and
the `components.schemas` block plays no role at all — replacing it by anything
(absent, empty, or populated) never changes the error list. -/
theorem c8_validator_iff (d : SpecDoc) :
    (validateFails d = true ↔
      (¬ ∃ s, d.openapi = some s ∧ strStarts s "3." = true) ∨
        d.info = false ∨ d.paths.getD [] = []) ∧
    (∀ schemas', validationErrors { d with schemas := schemas' } = validationErrors d) := by
  refine ⟨⟨?_, ?_⟩, fun _ => rfl⟩
  · intro hfail
    by_contra hcon
    push_neg at hcon
    obtain ⟨h1, h2, h3⟩ := hcon
    obtain ⟨s, hs, hstart⟩ := h1
    have hinfo : d.info = true := by revert h2; cases d.info <;> simp
    have hs_ne : s ≠ "" := by
      intro he
      subst he
      exact absurd hstart (by decide)
    unfold validateFails validationErrors at hfail
    rw [hs] at hfail
    simp [openapiTruthy, hs_ne, hstart, hinfo, h3] at hfail
  · intro hdisj
    unfold validateFails validationErrors
    rcases hdisj with hv | hi | hp
    · have hfirst : (openapiTruthy d.openapi && match d.openapi with
          | some s => strStarts s "3."
          | none => false) = false := by
        match hop : d.openapi with
        | none => simp [openapiTruthy]
        | some s =>
          by_cases hst : strStarts s "3." = true
          · exact absurd ⟨s, hop, hst⟩ hv
          · simp [hst]
      simp [hfirst]
    · simp [hi]
    · simp [hp]

/-! ## `generator.ts` method slots: `findSchemaForMethod`,
`groupOperationsByMethod`, `generateMethodSpecificSchema`, and the `methods`
object built by `generateResourceCode` (claims C3, C4, C10) -/

/-- The two checks `findSchemaForMethod` runs (direct reference and array of
reference — no union check, unlike `findPrimarySchemaForResource`). -/
def tryChecksDA (schemas : List ConvertedSchema) (s? : Option OASchema) : Option String :=
  orO ((extractSchemaFromRef s?).bind (fun n => if hasName schemas n then some n else none))
    ((extractSchemaFromArray s?).bind (fun n => if hasName schemas n then some n else none))

/-- `tryChecksDA` on a `content['application/json']` entry when present. -/
def jsonTryDA (schemas : List ConvertedSchema) (j : Option (Option OASchema)) : Option String :=
  match j with
  | some s? => tryChecksDA schemas s?
  | none => none

/-- `generator.ts` `findSchemaForMethod`: for `get`, the direct/array checks on
the `200` response then on every other `2`-prefixed response; for `post`/`put`,
the direct/array checks on the request body; anything else yields nothing. -/
def findSchemaForMethod (op : Operation) (schemas : List ConvertedSchema)
    (httpMethod : String) : Option String :=
  if lowerStr httpMethod = "get" then
    match op.responses with
    | none => none
    | some resps =>
      orO (jsonTryDA schemas (respJson resps "200"))
        (resps.findSome? (fun e =>
          if strStarts e.1 "2" && e.1 != "200" then jsonTryDA schemas e.2.json else none))
  else if lowerStr httpMethod = "post" || lowerStr httpMethod = "put" then
    match op.requestJson with
    | some s? => tryChecksDA schemas s?
    | none => none
  else none

/-- `generator.ts` `generateMethodSpecificSchema`: the emitted inputSchema
expression — the schema reference, with `.readonly()` appended exactly for
`get`. -/
def generateMethodSpecificSchema (schemaName : String) (httpMethod : String) : String :=
  if lowerStr httpMethod = "get" then toValidIdentifier schemaName ++ "Schema.readonly()"
  else toValidIdentifier schemaName ++ "Schema"

/-- One step of `groupOperationsByMethod`: push the operation onto its verb's
group when the verb is one of the group keys, else drop it. -/
def methodUpd (gs : List (String × List Operation)) (op : Operation) :
    List (String × List Operation) :=
  let m := lowerStr op.method
  if gs.any (fun e => e.1 = m) then
    gs.map (fun e => if e.1 = m then (e.1, e.2 ++ [op]) else e)
  else gs

/-- `generator.ts` `groupOperationsByMethod`: groups initialised to
`{get: [], post: [], put: [], delete: []}`; operations with any other verb are
dropped. -/
def groupOperationsByMethod (ops : List Operation) : List (String × List Operation) :=
  ops.foldl methodUpd [("get", []), ("post", []), ("put", []), ("delete", [])]

/-- One emitted method-slot entry of `generateResourceCode`'s `methods` object.
The emitted description and handler strings are functions of `op` (their text,
description escaping and handler code, is outside the model — no claim reads
it); `inputSchema` is the emitted inputSchema expression, `none` when the
entry omits the field. -/
structure MethodEntry where
  slot : String
  inputSchema : Option String
  op : Operation

/-- The entry (if any) one `methodMap` pair contributes: from the verb group's
first operation; a `delete` entry carries no `inputSchema`, every other entry
carries the `generateMethodSpecificSchema` expression, or the inline fallback
`z.object(\x7b id: z.string() \x7d)` when no schema name is found. -/
def slotEntry (ops : List Operation) (schemas : List ConvertedSchema)
    (httpMethod mcpMethod : String) : List MethodEntry :=
  match (groupOperationsByMethod ops).find? (fun g => g.1 = httpMethod) with
  | none => []
  | some g =>
    match g.2 with
    | [] => []
    | op :: _ =>
      let methodSchema :=
        match findSchemaForMethod op schemas httpMethod with
        | some n => generateMethodSpecificSchema n httpMethod
        | none => "z.object(\x7b id: z.string() \x7d)"
      if httpMethod = "delete" then [⟨mcpMethod, none, op⟩]
      else [⟨mcpMethod, some methodSchema, op⟩]

/-- The source's `methodMap`: HTTP verb to slot name, in object order. -/
def verbSlotMap : List (String × String) :=
  [("get", "get"), ("post", "create"), ("put", "update"), ("delete", "delete")]

/-- The `methods` entries `generateResourceCode` emits, in `methodMap` order. -/
def emitMethodEntries (ops : List Operation) (schemas : List ConvertedSchema) :
    List MethodEntry :=
  slotEntry ops schemas "get" "get" ++ slotEntry ops schemas "post" "create" ++
    slotEntry ops schemas "put" "update" ++ slotEntry ops schemas "delete" "delete"

theorem head?_filter_eq_find? (p : α → Bool) (l : List α) :
    (l.filter p).head? = l.find? p := by
  induction l with
  | nil => rfl
  | cons a as ih => by_cases h : p a <;> simp [List.filter, List.find?, h, ih]

theorem groupByMethod_fold (ops : List Operation) (A B C D : List Operation) :
    ops.foldl methodUpd [("get", A), ("post", B), ("put", C), ("delete", D)] =
      [("get", A ++ ops.filter (fun op => lowerStr op.method = "get")),
       ("post", B ++ ops.filter (fun op => lowerStr op.method = "post")),
       ("put", C ++ ops.filter (fun op => lowerStr op.method = "put")),
       ("delete", D ++ ops.filter (fun op => lowerStr op.method = "delete"))] := by
  induction ops generalizing A B C D with
  | nil => simp
  | cons op rest ih =>
    simp only [List.foldl_cons]
    by_cases hg : lowerStr op.method = "get"
    · rw [show methodUpd [("get", A), ("post", B), ("put", C), ("delete", D)] op =
          [("get", A ++ [op]), ("post", B), ("put", C), ("delete", D)] from by
        simp [methodUpd, hg]]
      rw [ih]
      simp [List.filter_cons, hg]
    · by_cases hp : lowerStr op.method = "post"
      · rw [show methodUpd [("get", A), ("post", B), ("put", C), ("delete", D)] op =
            [("get", A), ("post", B ++ [op]), ("put", C), ("delete", D)] from by
          simp [methodUpd, hp]]
        rw [ih]
        simp [List.filter_cons, hg, hp]
      · by_cases hu : lowerStr op.method = "put"
        · rw [show methodUpd [("get", A), ("post", B), ("put", C), ("delete", D)] op =
              [("get", A), ("post", B), ("put", C ++ [op]), ("delete", D)] from by
            simp [methodUpd, hu]]
          rw [ih]
          simp [List.filter_cons, hg, hp, hu]
        · by_cases hd : lowerStr op.method = "delete"
          · rw [show methodUpd [("get", A), ("post", B), ("put", C), ("delete", D)] op =
                [("get", A), ("post", B), ("put", C), ("delete", D ++ [op])] from by
              simp [methodUpd, hd]]
            rw [ih]
            simp [List.filter_cons, hg, hp, hu, hd]
          · rw [show methodUpd [("get", A), ("post", B), ("put", C), ("delete", D)] op =
                [("get", A), ("post", B), ("put", C), ("delete", D)] from by
              simp only [methodUpd]
              rw [if_neg]
              simp only [List.any_cons, List.any_nil, Bool.or_false, Bool.or_eq_true,
                decide_eq_true_eq]
              rintro (h | h | h | h)
              · exact hg h.symm
              · exact hp h.symm
              · exact hu h.symm
              · exact hd h.symm]
            rw [ih]
            simp [List.filter_cons, hg, hp, hu, hd]

theorem groupByMethod_eq (ops : List Operation) :
    groupOperationsByMethod ops =
      [("get", ops.filter (fun op => lowerStr op.method = "get")),
       ("post", ops.filter (fun op => lowerStr op.method = "post")),
       ("put", ops.filter (fun op => lowerStr op.method = "put")),
       ("delete", ops.filter (fun op => lowerStr op.method = "delete"))] := by
  unfold groupOperationsByMethod
  rw [groupByMethod_fold]
  simp

theorem mem_slotEntry (ops : List Operation) (schemas : List ConvertedSchema)
    (v m : String) (hvm : (v, m) ∈ verbSlotMap) (e : MethodEntry)
    (he : e ∈ slotEntry ops schemas v m) :
    e.slot = m ∧ ops.find? (fun op => lowerStr op.method = v) = some e.op ∧
      (v = "delete" → e.inputSchema = none) ∧
      (v ≠ "delete" → e.inputSchema.isSome = true) := by
  have hgrp : (groupOperationsByMethod ops).find? (fun g => g.1 = v) =
      some (v, ops.filter (fun op => lowerStr op.method = v)) := by
    simp only [verbSlotMap, List.mem_cons, List.mem_singleton, Prod.mk.injEq,
      List.not_mem_nil, or_false] at hvm
    rcases hvm with ⟨rfl, rfl⟩ | ⟨rfl, rfl⟩ | ⟨rfl, rfl⟩ | ⟨rfl, rfl⟩ <;>
      · rw [groupByMethod_eq]
        simp [List.find?]
  unfold slotEntry at he
  rw [hgrp] at he
  dsimp only at he
  match hf : ops.filter (fun op => lowerStr op.method = v) with
  | [] =>
    rw [hf] at he
    simp at he
  | op0 :: rest =>
    rw [hf] at he
    have hfind : ops.find? (fun op => lowerStr op.method = v) = some op0 := by
      rw [← head?_filter_eq_find?, hf]
      rfl
    dsimp only at he
    by_cases hv : v = "delete"
    · rw [if_pos hv] at he
      simp only [List.mem_singleton] at he
      subst he
      exact ⟨rfl, hfind, fun _ => rfl, fun h => absurd hv h⟩
    · rw [if_neg hv] at he
      simp only [List.mem_singleton] at he
      subst he
      exact ⟨rfl, hfind, fun h => absurd h hv, fun _ => rfl⟩

/-- **C10** (confirmed).  In every emitted `methods` object, an entry is the
`delete` slot exactly when it omits `inputSchema`: the `delete` entry carries
only a description and a handler, and every emitted `get`/`create`/`update`
entry carries an `inputSchema` (a method-specific schema expression or the
inline fallback). -/
theorem c10_delete_slot_input_schema (ops : List Operation)
    (schemas : List ConvertedSchema) (e : MethodEntry)
    (he : e ∈ emitMethodEntries ops schemas) :
    (e.slot = "delete" → e.inputSchema = none) ∧
    (e.slot ≠ "delete" → e.inputSchema.isSome = true) := by
  unfold emitMethodEntries at he
  rcases List.mem_append.mp he with habc | he4
  rotate_left
  · have h := mem_slotEntry ops schemas "delete" "delete" (by simp [verbSlotMap]) e he4
    exact ⟨fun _ => h.2.2.1 rfl, fun hne => absurd h.1 hne⟩
  rcases List.mem_append.mp habc with hab | he3
  rotate_left
  · have h := mem_slotEntry ops schemas "put" "update" (by simp [verbSlotMap]) e he3
    exact ⟨fun hd => absurd (h.1.symm.trans hd) (by decide), fun _ => h.2.2.2 (by decide)⟩
  rcases List.mem_append.mp hab with he1 | he2
  · have h := mem_slotEntry ops schemas "get" "get" (by simp [verbSlotMap]) e he1
    exact ⟨fun hd => absurd (h.1.symm.trans hd) (by decide), fun _ => h.2.2.2 (by decide)⟩
  · have h := mem_slotEntry ops schemas "post" "create" (by simp [verbSlotMap]) e he2
    exact ⟨fun hd => absurd (h.1.symm.trans hd) (by decide), fun _ => h.2.2.2 (by decide)⟩

/-- C10 witness ingredients: a resource with a `GET` and a `DELETE` operation. -/
def opGetC10 : Operation :=
  ⟨"GET", "/widgets/{id}", none,
    some [("200", ⟨some (some (.ref "#/components/schemas/Widget"))⟩)]⟩

/-- The `DELETE` operation of the C10 witness. -/
def opDelC10 : Operation := ⟨"DELETE", "/widgets/{id}", none, none⟩

/-- The C10 witness operations. -/
def opsC10 : List Operation := [opGetC10, opDelC10]

/-- The `delete` entry the generator emits for `opsC10`. -/
def entryDelC10 : MethodEntry := ⟨"delete", none, opDelC10⟩

/-- Witness for C10: on a concrete resource with a `GET` and a `DELETE`
operation, the emitted `delete` entry is in the `methods` object and the
theorem applies to it. -/
theorem c10_witness :
    entryDelC10 ∈ emitMethodEntries opsC10 schemasC5 ∧
    (entryDelC10.slot = "delete" → entryDelC10.inputSchema = none) ∧
    (entryDelC10.slot ≠ "delete" → entryDelC10.inputSchema.isSome = true) := by
  have hmem : entryDelC10 ∈ emitMethodEntries opsC10 schemasC5 := by
    rw [show emitMethodEntries opsC10 schemasC5 =
      [⟨"get", some "WidgetSchema.readonly()", opGetC10⟩, entryDelC10] from rfl]
    exact List.mem_cons_of_mem _ (List.mem_cons_self _ _)
  exact ⟨hmem, c10_delete_slot_input_schema opsC10 schemasC5 entryDelC10 hmem⟩

/-! ## Claim C4: verb-to-slot mapping, the missing `list` slot, and discarded
operations -/

/-- The C4 failing input: a collection `GET`, an item `GET`, and a `PATCH`. -/
def opsC4 : List Operation :=
  [⟨"GET", "/users", none, none⟩,
   ⟨"GET", "/users/{id}", none, none⟩,
   ⟨"PATCH", "/users/{id}", none, none⟩]

/-- **C4 counterexample.**  On `opsC4` the emitted `methods` object has exactly
one entry: a `get` slot built from the collection `GET /users` (the first
operation of the verb group).  There is no `list` slot for the parameterless
`GET`, the second `GET` is not emitted anywhere, and the `PATCH` operation does
not become a named custom method — it is discarded, contradicting the claim. -/
theorem c4_counterexample :
    (emitMethodEntries opsC4 []).map (fun e => e.slot) = ["get"] ∧
    (emitMethodEntries opsC4 []).map (fun e => e.op.path) = ["/users"] :=
  ⟨rfl, rfl⟩

/-- **C4** (corrected, amended claim).  Operations are assigned to method slots
by HTTP verb as GET→get, POST→create, PUT→update, DELETE→delete, taking only
the **first** operation of each verb; there is no `list` slot, and an
operation with any other verb, or beyond the first of its verb, is discarded
rather than becoming a custom method.  Formally: every emitted entry's slot is
one of the four mapped names (never `"list"`) and holds the first operation of
its verb, and a slot is emitted exactly when some operation has its verb. -/
theorem c4_amended (ops : List Operation) (schemas : List ConvertedSchema) :
    (∀ e ∈ emitMethodEntries ops schemas, e.slot ≠ "list" ∧
      ∃ v, (v, e.slot) ∈ verbSlotMap ∧
        ops.find? (fun op => lowerStr op.method = v) = some e.op) ∧
    (∀ v slot, (v, slot) ∈ verbSlotMap →
      ((∃ op ∈ ops, lowerStr op.method = v) ↔
        ∃ e ∈ emitMethodEntries ops schemas, e.slot = slot)) := by
  constructor
  · intro e he
    unfold emitMethodEntries at he
    rcases List.mem_append.mp he with habc | he4
    rotate_left
    · have h := mem_slotEntry ops schemas "delete" "delete" (by simp [verbSlotMap]) e he4
      exact ⟨by rw [h.1]; decide, "delete", by rw [h.1]; exact ⟨by simp [verbSlotMap], h.2.1⟩⟩
    rcases List.mem_append.mp habc with hab | he3
    rotate_left
    · have h := mem_slotEntry ops schemas "put" "update" (by simp [verbSlotMap]) e he3
      exact ⟨by rw [h.1]; decide, "put", by rw [h.1]; exact ⟨by simp [verbSlotMap], h.2.1⟩⟩
    rcases List.mem_append.mp hab with he1 | he2
    · have h := mem_slotEntry ops schemas "get" "get" (by simp [verbSlotMap]) e he1
      exact ⟨by rw [h.1]; decide, "get", by rw [h.1]; exact ⟨by simp [verbSlotMap], h.2.1⟩⟩
    · have h := mem_slotEntry ops schemas "post" "create" (by simp [verbSlotMap]) e he2
      exact ⟨by rw [h.1]; decide, "post", by rw [h.1]; exact ⟨by simp [verbSlotMap], h.2.1⟩⟩
  · intro v slot hvm
    have hslotentry : ∀ (m : String),
        (∃ op ∈ ops, lowerStr op.method = v) ↔ slotEntry ops schemas v m ≠ [] := by
      intro m
      have hgrp : (groupOperationsByMethod ops).find? (fun g => g.1 = v) =
          some (v, ops.filter (fun op => lowerStr op.method = v)) := by
        simp only [verbSlotMap, List.mem_cons, List.mem_singleton, Prod.mk.injEq,
          List.not_mem_nil, or_false] at hvm
        rcases hvm with ⟨rfl, rfl⟩ | ⟨rfl, rfl⟩ | ⟨rfl, rfl⟩ | ⟨rfl, rfl⟩ <;>
          · rw [groupByMethod_eq]
            simp [List.find?]
      unfold slotEntry
      rw [hgrp]
      dsimp only
      constructor
      · rintro ⟨op, hop, hv⟩
        have hne : ops.filter (fun op => lowerStr op.method = v) ≠ [] := by
          intro hnil
          have : op ∈ ops.filter (fun op => lowerStr op.method = v) :=
            List.mem_filter.mpr ⟨hop, by simp [hv]⟩
          rw [hnil] at this
          exact absurd this (List.not_mem_nil op)
        match hf : ops.filter (fun op => lowerStr op.method = v) with
        | [] => exact absurd hf hne
        | op0 :: rest =>
          rw [hf]
          by_cases hvd : v = "delete" <;> simp [hvd]
      · intro hne
        match hf : ops.filter (fun op => lowerStr op.method = v) with
        | [] => rw [hf] at hne; simp at hne
        | op0 :: rest =>
          have : op0 ∈ ops.filter (fun op => lowerStr op.method = v) := by
            rw [hf]; simp
          have hmf := List.mem_filter.mp this
          exact ⟨op0, hmf.1, by simpa using hmf.2⟩
    constructor
    · intro hex
      simp only [verbSlotMap, List.mem_cons, List.mem_singleton, Prod.mk.injEq,
        List.not_mem_nil, or_false] at hvm
      rcases hvm with ⟨rfl, rfl⟩ | ⟨rfl, rfl⟩ | ⟨rfl, rfl⟩ | ⟨rfl, rfl⟩
      · have hne := (hslotentry "get").mp hex
        match hf : slotEntry ops schemas "get" "get" with
        | [] => exact absurd hf hne
        | e0 :: rest =>
          refine ⟨e0, ?_,
            (mem_slotEntry ops schemas "get" "get" (by simp [verbSlotMap]) e0
              (by rw [hf]; simp)).1⟩
          unfold emitMethodEntries
          simp only [List.mem_append]
          exact Or.inl (Or.inl (Or.inl (by rw [hf]; simp)))
      · have hne := (hslotentry "create").mp hex
        match hf : slotEntry ops schemas "post" "create" with
        | [] => exact absurd hf hne
        | e0 :: rest =>
          refine ⟨e0, ?_,
            (mem_slotEntry ops schemas "post" "create" (by simp [verbSlotMap]) e0
              (by rw [hf]; simp)).1⟩
          unfold emitMethodEntries
          simp only [List.mem_append]
          exact Or.inl (Or.inl (Or.inr (by rw [hf]; simp)))
      · have hne := (hslotentry "update").mp hex
        match hf : slotEntry ops schemas "put" "update" with
        | [] => exact absurd hf hne
        | e0 :: rest =>
          refine ⟨e0, ?_,
            (mem_slotEntry ops schemas "put" "update" (by simp [verbSlotMap]) e0
              (by rw [hf]; simp)).1⟩
          unfold emitMethodEntries
          simp only [List.mem_append]
          exact Or.inl (Or.inr (by rw [hf]; simp))
      · have hne := (hslotentry "delete").mp hex
        match hf : slotEntry ops schemas "delete" "delete" with
        | [] => exact absurd hf hne
        | e0 :: rest =>
          refine ⟨e0, ?_,
            (mem_slotEntry ops schemas "delete" "delete" (by simp [verbSlotMap]) e0
              (by rw [hf]; simp)).1⟩
          unfold emitMethodEntries
          simp only [List.mem_append]
          exact Or.inr (by rw [hf]; simp)
    · rintro ⟨e, he, hslot⟩
      unfold emitMethodEntries at he
      simp only [verbSlotMap, List.mem_cons, List.mem_singleton, Prod.mk.injEq,
        List.not_mem_nil, or_false] at hvm
      have hget := fun (hee : e ∈ slotEntry ops schemas "get" "get") =>
        mem_slotEntry ops schemas "get" "get" (by simp [verbSlotMap]) e hee
      have hpost := fun (hee : e ∈ slotEntry ops schemas "post" "create") =>
        mem_slotEntry ops schemas "post" "create" (by simp [verbSlotMap]) e hee
      have hput := fun (hee : e ∈ slotEntry ops schemas "put" "update") =>
        mem_slotEntry ops schemas "put" "update" (by simp [verbSlotMap]) e hee
      have hdel := fun (hee : e ∈ slotEntry ops schemas "delete" "delete") =>
        mem_slotEntry ops schemas "delete" "delete" (by simp [verbSlotMap]) e hee
      have hfindex : ∀ w, ops.find? (fun op => lowerStr op.method = w) = some e.op →
          ∃ op ∈ ops, lowerStr op.method = w := by
        intro w hw
        refine ⟨e.op, List.mem_of_find?_eq_some hw, ?_⟩
        have := List.find?_some hw
        simpa using this
      rcases hvm with ⟨rfl, rfl⟩ | ⟨rfl, rfl⟩ | ⟨rfl, rfl⟩ | ⟨rfl, rfl⟩ <;>
        rcases List.mem_append.mp he with habc | he4 <;>
          [skip; (exact absurd ((hdel he4).1.symm.trans hslot) (by decide));
           skip; (exact absurd ((hdel he4).1.symm.trans hslot) (by decide));
           skip; (exact absurd ((hdel he4).1.symm.trans hslot) (by decide));
           skip; (exact hfindex _ (hdel he4).2.1)] <;>
        rcases List.mem_append.mp habc with hab | he3 <;>
          [skip; (exact absurd ((hput he3).1.symm.trans hslot) (by decide));
           skip; (exact absurd ((hput he3).1.symm.trans hslot) (by decide));
           skip; (exact hfindex _ (hput he3).2.1);
           skip; (exact absurd ((hput he3).1.symm.trans hslot) (by decide))] <;>
        rcases List.mem_append.mp hab with he1 | he2
      · exact hfindex _ (hget he1).2.1
      · exact absurd ((hpost he2).1.symm.trans hslot) (by decide)
      · exact absurd ((hget he1).1.symm.trans hslot) (by decide)
      · exact hfindex _ (hpost he2).2.1
      · exact absurd ((hget he1).1.symm.trans hslot) (by decide)
      · exact absurd ((hpost he2).1.symm.trans hslot) (by decide)
      · exact absurd ((hget he1).1.symm.trans hslot) (by decide)
      · exact absurd ((hpost he2).1.symm.trans hslot) (by decide)

/-- Witness for C4's amended claim at a concrete input: on `opsC4` the `get`
slot is emitted because a `GET` operation exists. -/
theorem c4_witness :
    (∃ op ∈ opsC4, lowerStr op.method = "get") ↔
      ∃ e ∈ emitMethodEntries opsC4 [], e.slot = "get" :=
  (c4_amended opsC4 []).2 "get" "get" (by simp [verbSlotMap])

/-! ## Claim C3: readonly round-trip of the emitted method-slot schemas -/

/-- Does a raw schema carry `readOnly: true`? -/
def oaReadOnly : OASchema → Bool
  | .str _ _ ro => ro
  | .num _ _ _ ro => ro
  | .boolS ro => ro
  | .arr _ ro => ro
  | .obj _ _ _ ro => ro
  | _ => false

/-- Does the raw object schema flag property `k` as `readOnly: true`? -/
def rawPropReadOnly (s : OASchema) (k : String) : Bool :=
  match s with
  | .obj (some props) _ _ _ =>
    match props.find? (fun kp => kp.1 = k) with
    | some kp => oaReadOnly kp.2
    | none => false
  | _ => false

/-- Is a shape entry readonly-marked (a `.readonly()` wrapper, possibly under
`.optional()`)? -/
def entryReadonly : ZodTy → Bool
  | .zreadonly _ => true
  | .zoptional t => entryReadonly t
  | _ => false

/-- Does the object schema value include `k` as a writable (non-readonly)
field of its shape? -/
def hasWritableField (z : ZodTy) (k : String) : Bool :=
  match z with
  | .zobject shape _ _ => shape.any (fun kp => kp.1 = k && !entryReadonly kp.2)
  | _ => false

mutual
/-- No `.readonly()` marker occurs anywhere in the schema value. -/
def zodNoReadonly : ZodTy → Bool
  | .zany => true
  | .zstring _ => true
  | .zenum _ => true
  | .zliteral _ => true
  | .znumber _ _ _ => true
  | .zboolean => true
  | .zarray t => zodNoReadonly t
  | .zobject shape _ catchall =>
    zodNoReadonlyShape shape &&
      (match catchall with
       | some t => zodNoReadonly t
       | none => true)
  | .zrecordAny => true
  | .zoptional t => zodNoReadonly t
  | .zreadonly _ => false
  | .zunion ts => zodNoReadonlyList ts
  | .zintersection ts => zodNoReadonlyList ts
  | .zlazy t => zodNoReadonly t
def zodNoReadonlyShape : List (String × ZodTy) → Bool
  | [] => true
  | kp :: rest => zodNoReadonly kp.2 && zodNoReadonlyShape rest
def zodNoReadonlyList : List ZodTy → Bool
  | [] => true
  | t :: rest => zodNoReadonly t && zodNoReadonlyList rest
end

theorem optMapList_forall (f : α → Option β) (P : β → Prop) :
    ∀ (l : List α) (res : List β), optMapList f l = some res →
      (∀ a ∈ l, ∀ b, f a = some b → P b) → ∀ b ∈ res, P b := by
  intro l
  induction l with
  | nil =>
    intro res h _
    simp only [optMapList] at h
    injection h with h
    subst h
    intro b hb
    exact absurd hb (List.not_mem_nil b)
  | cons a as ih =>
    intro res h hf b hb
    simp only [optMapList] at h
    match hfa : f a with
    | none => rw [hfa] at h; exact Option.noConfusion h
    | some b0 =>
      rw [hfa] at h
      match hrest : optMapList f as with
      | none => rw [hrest] at h; exact Option.noConfusion h
      | some res' =>
        rw [hrest] at h
        simp only [Option.map_some] at h
        injection h with h
        subst h
        rcases List.mem_cons.mp hb with rfl | hb'
        · exact hf a (by simp) b hfa
        · exact ih res' hrest (fun a' ha' => hf a' (by simp [ha'])) b hb'

theorem zodNoReadonlyShape_of_forall (l : List (String × ZodTy))
    (h : ∀ kp ∈ l, zodNoReadonly kp.2 = true) : zodNoReadonlyShape l = true := by
  induction l with
  | nil => rfl
  | cons kp rest ih =>
    simp only [zodNoReadonlyShape, Bool.and_eq_true]
    exact ⟨h kp (by simp), ih (fun kp' h' => h kp' (by simp [h']))⟩

theorem zodNoReadonlyList_of_forall (l : List ZodTy)
    (h : ∀ t ∈ l, zodNoReadonly t = true) : zodNoReadonlyList l = true := by
  induction l with
  | nil => rfl
  | cons t rest ih =>
    simp only [zodNoReadonlyList, Bool.and_eq_true]
    exact ⟨h t (by simp), ih (fun t' h' => h t' (by simp [h']))⟩

theorem mkUnion_noReadonly (l : List ZodTy) (h : ∀ t ∈ l, zodNoReadonly t = true) :
    zodNoReadonly (mkUnion l) = true := by
  match l with
  | [] => rfl
  | [z] => exact h z (by simp)
  | z1 :: z2 :: rest =>
    show zodNoReadonlyList (z1 :: z2 :: rest) = true
    exact zodNoReadonlyList_of_forall _ h

theorem mkIntersection_noReadonly (l : List ZodTy)
    (h : ∀ t ∈ l, zodNoReadonly t = true) : zodNoReadonly (mkIntersection l) = true := by
  match l with
  | [] => rfl
  | [z] => exact h z (by simp)
  | z1 :: z2 :: rest =>
    show zodNoReadonlyList (z1 :: z2 :: rest) = true
    exact zodNoReadonlyList_of_forall _ h

/-- With its `readonly` parameter `false` — as at the pipeline's only call
site — `convertZodToOpenAPI` never produces a `.readonly()` marker anywhere:
it never reads the source `readOnly` flags. -/
theorem convert_noReadonly :
    ∀ (n : Nat) (s? : Option OASchema) (table : List (String × OASchema)) (z : ZodTy),
      convertZodToOpenAPI n s? table false = some z → zodNoReadonly z = true := by
  intro n
  induction n with
  | zero => intro s? table z h; exact Option.noConfusion h
  | succ m ih =>
    intro s? table z h
    match s? with
    | none =>
      simp only [convertZodToOpenAPI] at h
      injection h with h
      subst h
      rfl
    | some s =>
      match s with
      | .ref r =>
        simp only [convertZodToOpenAPI] at h
        match hl : lookupRaw table (extractRefName r) with
        | some raw =>
          rw [hl] at h
          exact ih (some raw) table z h
        | none =>
          rw [hl] at h
          injection h with h
          subst h
          rfl
      | .str format enumVals ro =>
        simp only [convertZodToOpenAPI] at h
        match enumVals with
        | some vs =>
          dsimp only at h
          injection h with h; subst h; rfl
        | none =>
          dsimp only at h
          split at h <;> (injection h with h; subst h; rfl)
      | .num isInt lo hi ro =>
        simp only [convertZodToOpenAPI] at h
        injection h with h; subst h; rfl
      | .boolS ro =>
        simp only [convertZodToOpenAPI] at h
        injection h with h; subst h; rfl
      | .arr items ro =>
        simp only [convertZodToOpenAPI] at h
        match items with
        | some it =>
          dsimp only at h
          match hc : convertZodToOpenAPI m (some it) table false with
          | none => rw [hc] at h; exact Option.noConfusion h
          | some w =>
            rw [hc] at h
            simp only [Option.map_some'] at h
            injection h with h
            subst h
            exact ih (some it) table w hc
        | none =>
          dsimp only at h
          injection h with h; subst h; rfl
      | .obj properties required addProps ro =>
        simp only [convertZodToOpenAPI] at h
        match properties with
        | some props =>
          dsimp only at h
          match hm : optMapList (fun kp =>
              (convertZodToOpenAPI m (some kp.2) table false).map (fun pz =>
                (kp.1, if requiredContains required kp.1 then pz
                  else ZodTy.zoptional pz))) props with
          | none => rw [hm] at h; exact Option.noConfusion h
          | some shape =>
            rw [hm] at h
            simp only [Option.map_some', Bool.false_eq_true, if_false] at h
            injection h with h
            subst h
            show (zodNoReadonlyShape shape && true) = true
            rw [Bool.and_true]
            apply zodNoReadonlyShape_of_forall
            apply optMapList_forall _ (fun kp => zodNoReadonly kp.2 = true) props shape hm
            intro kp hkp b hfb
            match hc : convertZodToOpenAPI m (some kp.2) table false with
            | none => rw [hc] at hfb; exact Option.noConfusion hfb
            | some pz =>
              rw [hc] at hfb
              simp only [Option.map_some'] at hfb
              injection hfb with hfb
              subst hfb
              have hno := ih (some kp.2) table pz hc
              by_cases hreq : requiredContains required kp.1 = true
              · simp only [hreq, if_true]
                exact hno
              · simp only [Bool.not_eq_true] at hreq
                simp only [hreq, Bool.false_eq_true, if_false]
                exact hno
        | none =>
          dsimp only at h
          injection h with h; subst h; rfl
      | .oneOfS ms =>
        simp only [convertZodToOpenAPI] at h
        match hm : optMapList (fun mm => convertZodToOpenAPI m (some mm) table false) ms with
        | none => rw [hm] at h; exact Option.noConfusion h
        | some zs =>
          rw [hm] at h
          simp only [Option.map_some'] at h
          injection h with h
          subst h
          apply mkUnion_noReadonly
          apply optMapList_forall _ (fun t => zodNoReadonly t = true) ms zs hm
          intro a _ b hb
          exact ih (some a) table b hb
      | .anyOfS ms =>
        simp only [convertZodToOpenAPI] at h
        match hm : optMapList (fun mm => convertZodToOpenAPI m (some mm) table false) ms with
        | none => rw [hm] at h; exact Option.noConfusion h
        | some zs =>
          rw [hm] at h
          simp only [Option.map_some'] at h
          injection h with h
          subst h
          apply mkUnion_noReadonly
          apply optMapList_forall _ (fun t => zodNoReadonly t = true) ms zs hm
          intro a _ b hb
          exact ih (some a) table b hb
      | .allOfS ms =>
        simp only [convertZodToOpenAPI] at h
        match hm : optMapList (fun mm => convertZodToOpenAPI m (some mm) table false) ms with
        | none => rw [hm] at h; exact Option.noConfusion h
        | some zs =>
          rw [hm] at h
          simp only [Option.map_some'] at h
          injection h with h
          subst h
          apply mkIntersection_noReadonly
          apply optMapList_forall _ (fun t => zodNoReadonly t = true) ms zs hm
          intro a _ b hb
          exact ih (some a) table b hb
      | .untyped =>
        simp only [convertZodToOpenAPI] at h
        injection h with h; subst h; rfl

/-- The inline fallback `z.object(\x7b id: z.string() \x7d)` as a value. -/
def fallbackIdSchema : ZodTy := .zobject [("id", .zstring none)] false none

/-- The Zod value denoted by the inputSchema expression emitted for a method
slot.  The expression (`generateMethodSpecificSchema`) is `<Name>Schema`,
`<Name>Schema.readonly()`, or the inline fallback object; in the generated
project `<Name>Schema` is bound, in `schemas/<Name>.ts`, to the step-2
conversion of the raw schema `<Name>`, so the slot's schema value is that
conversion, wrapped in `.readonly()` exactly for `get` slots. -/
def methodSlotValue (fuel : Nat) (op : Operation) (table : List (String × OASchema))
    (httpMethod : String) : Option ZodTy :=
  let converted := convertAllSchemas fuel table
  match findSchemaForMethod op converted httpMethod with
  | some name =>
    match converted.find? (fun s => s.name = name) with
    | some cs => some (if lowerStr httpMethod = "get" then .zreadonly cs.schema else cs.schema)
    | none => none
  | none => some fallbackIdSchema

/-- The raw `Widget` schema of the C3 counterexample:
`id` is flagged `readOnly: true`, `name` is not; both are required. -/
def rawWidget : OASchema :=
  .obj (some [("id", .str none none true), ("name", .str none none false)])
    (some ["id", "name"]) none false

/-- The C3 schema table. -/
def tableC3 : List (String × OASchema) := [("Widget", rawWidget)]

/-- The C3 create operation: `POST /widgets` whose request body and `200`
response are `$ref Widget`. -/
def opC3 : Operation :=
  ⟨"POST", "/widgets", some (some (.ref "#/components/schemas/Widget")),
    some [("200", ⟨some (some (.ref "#/components/schemas/Widget"))⟩)]⟩

/-- The translated `Widget` value: both properties plain writable strings —
the source `readOnly: true` flag on `id` is gone. -/
def widgetZodC3 : ZodTy :=
  .zobject [("id", .zstring none), ("name", .zstring none)] false none

/-- **C3 counterexample.**  `id` is flagged `readOnly: true` in the source
`Widget` schema, yet the generated `create` method-slot input schema is the
translated `Widget` schema unchanged, and it includes `id` as a writable
field — contradicting the claim that a readOnly property never appears as a
writable field of the create/update slot schema. -/
theorem c3_counterexample :
    rawPropReadOnly rawWidget "id" = true ∧
    methodSlotValue 10 opC3 tableC3 "post" = some widgetZodC3 ∧
    hasWritableField widgetZodC3 "id" = true :=
  ⟨rfl, rfl, rfl⟩

theorem mem_convertAllSchemas (fuel : Nat) (table : List (String × OASchema))
    (cs : ConvertedSchema) (h : cs ∈ convertAllSchemas fuel table) :
    ∃ nr ∈ table, convertZodToOpenAPI fuel (some nr.2) table false = some cs.schema := by
  unfold convertAllSchemas at h
  rcases List.mem_filterMap.mp h with ⟨nr, hnr, hconv⟩
  refine ⟨nr, hnr, ?_⟩
  match hc : convertZodToOpenAPI fuel (some nr.2) table false with
  | none => rw [hc] at hconv; exact Option.noConfusion hconv
  | some z =>
    rw [hc] at hconv
    simp only [Option.map_some'] at hconv
    injection hconv with hconv
    rw [← hconv]

theorem methodSlotValue_eq (fuel : Nat) (op : Operation)
    (table : List (String × OASchema)) (m : String) :
    methodSlotValue fuel op table m =
      match findSchemaForMethod op (convertAllSchemas fuel table) m with
      | some name =>
        match (convertAllSchemas fuel table).find? (fun s => s.name = name) with
        | some cs => some (if lowerStr m = "get" then .zreadonly cs.schema else cs.schema)
        | none => none
      | none => some fallbackIdSchema := rfl

/-- **C3** (corrected, amended claim).  The translation never consults the
source `readOnly` flags, and `generateMethodSpecificSchema` applies
`.readonly()` only for `get`: so (i) a `post`/`put` (create/update) slot's
input schema value carries no readonly marking anywhere — a source property
flagged `readOnly: true` appears in it as a writable field like any other
property — and (ii) a `get` slot's input schema value is either the inline
fallback or the whole translated schema wrapped in `.readonly()` (there is no
`list` slot at all). -/
theorem c3_amended (fuel : Nat) (op : Operation) (table : List (String × OASchema)) :
    (∀ m, (m = "post" ∨ m = "put") → ∀ z, methodSlotValue fuel op table m = some z →
      zodNoReadonly z = true) ∧
    (∀ z, methodSlotValue fuel op table "get" = some z →
      z = fallbackIdSchema ∨ ∃ z0, z = .zreadonly z0) := by
  constructor
  · intro m hm z hz
    rw [methodSlotValue_eq] at hz
    match hfs : findSchemaForMethod op (convertAllSchemas fuel table) m with
    | none =>
      rw [hfs] at hz
      dsimp only at hz
      injection hz with hz
      subst hz
      rfl
    | some name =>
      rw [hfs] at hz
      dsimp only at hz
      match hfind : (convertAllSchemas fuel table).find? (fun s => s.name = name) with
      | none => rw [hfind] at hz; exact Option.noConfusion hz
      | some cs =>
        rw [hfind] at hz
        dsimp only at hz
        have hneg : ¬ lowerStr m = "get" := by
          rcases hm with rfl | rfl <;> decide
        rw [if_neg hneg] at hz
        injection hz with hz
        subst hz
        have hmem : cs ∈ convertAllSchemas fuel table :=
          List.mem_of_find?_eq_some hfind
        obtain ⟨nr, _, hconv⟩ := mem_convertAllSchemas fuel table cs hmem
        exact convert_noReadonly fuel (some nr.2) table cs.schema hconv
  · intro z hz
    rw [methodSlotValue_eq] at hz
    match hfs : findSchemaForMethod op (convertAllSchemas fuel table) "get" with
    | none =>
      rw [hfs] at hz
      dsimp only at hz
      injection hz with hz
      exact Or.inl hz.symm
    | some name =>
      rw [hfs] at hz
      dsimp only at hz
      match hfind : (convertAllSchemas fuel table).find? (fun s => s.name = name) with
      | none => rw [hfind] at hz; exact Option.noConfusion hz
      | some cs =>
        rw [hfind] at hz
        dsimp only at hz
        rw [if_pos (by decide : lowerStr "get" = "get")] at hz
        injection hz with hz
        exact Or.inr ⟨cs.schema, hz.symm⟩

/-- Witness for C3's amended claim: the concrete create-slot schema of the
counterexample input carries no readonly marking. -/
theorem c3_witness :
    methodSlotValue 10 opC3 tableC3 "post" = some widgetZodC3 ∧
    zodNoReadonly widgetZodC3 = true :=
  ⟨rfl, (c3_amended 10 opC3 tableC3).1 "post" (Or.inl rfl) widgetZodC3 rfl⟩

/-! ## Claim C9: every imported schema file is also emitted

The invariant and coverage lemmas for the pruner's reference collector. -/

/-- The collector invariant: every `$ref` string already visited has its
extracted name already collected. -/
def collectInv (st : List String × List String) : Prop :=
  ∀ r ∈ st.1, extractRefName r ∈ st.2

mutual
theorem collectRefs_spec (s : OASchema) (st : List String × List String)
    (hInv : collectInv st) :
    collectInv (collectRefs s st) ∧ st.2 ⊆ (collectRefs s st).2 ∧
      ∀ r ∈ subRefs s, extractRefName r ∈ (collectRefs s st).2 := by
  match s, st with
  | .ref r, (v, u) =>
    simp only [collectRefs, subRefs]
    by_cases hc : v.contains r
    · rw [if_pos hc]
      refine ⟨hInv, fun x hx => hx, ?_⟩
      intro r' hr'
      rcases List.mem_singleton.mp hr' with rfl
      exact hInv r' (by simpa using hc)
    · rw [if_neg hc]
      refine ⟨?_, fun x hx => by simp [hx], ?_⟩
      · intro r' hr'
        rcases List.mem_append.mp hr' with h1 | h2
        · exact List.mem_append.mpr (Or.inl (hInv r' h1))
        · rcases List.mem_singleton.mp h2 with rfl
          simp
      · intro r' hr'
        rcases List.mem_singleton.mp hr' with rfl
        simp
  | .arr items ro, st =>
    match items with
    | some it =>
      simpa only [collectRefs, subRefs] using collectRefs_spec it st hInv
    | none =>
      simp only [collectRefs, subRefs]
      exact ⟨hInv, fun x hx => hx, by simp⟩
  | .obj properties required addProps ro, st =>
    match properties with
    | some props =>
      simpa only [collectRefs, subRefs] using collectRefsProps_spec props st hInv
    | none =>
      simp only [collectRefs, subRefs]
      exact ⟨hInv, fun x hx => hx, by simp⟩
  | .oneOfS ms, st =>
    simpa only [collectRefs, subRefs] using collectRefsList_spec ms st hInv
  | .anyOfS ms, st =>
    simpa only [collectRefs, subRefs] using collectRefsList_spec ms st hInv
  | .allOfS ms, st =>
    simpa only [collectRefs, subRefs] using collectRefsList_spec ms st hInv
  | .str f e ro, st =>
    simp only [collectRefs, subRefs]
    exact ⟨hInv, fun x hx => hx, by simp⟩
  | .num a b c ro, st =>
    simp only [collectRefs, subRefs]
    exact ⟨hInv, fun x hx => hx, by simp⟩
  | .boolS ro, st =>
    simp only [collectRefs, subRefs]
    exact ⟨hInv, fun x hx => hx, by simp⟩
  | .untyped, st =>
    simp only [collectRefs, subRefs]
    exact ⟨hInv, fun x hx => hx, by simp⟩
theorem collectRefsProps_spec (l : List (String × OASchema))
    (st : List String × List String) (hInv : collectInv st) :
    collectInv (collectRefsProps l st) ∧ st.2 ⊆ (collectRefsProps l st).2 ∧
      ∀ r ∈ subRefsProps l, extractRefName r ∈ (collectRefsProps l st).2 := by
  match l with
  | [] =>
    simp only [collectRefsProps, subRefsProps]
    exact ⟨hInv, fun x hx => hx, by simp⟩
  | kp :: rest =>
    have h1 := collectRefs_spec kp.2 st hInv
    have h2 := collectRefsProps_spec rest (collectRefs kp.2 st) h1.1
    simp only [collectRefsProps, subRefsProps]
    refine ⟨h2.1, fun x hx => h2.2.1 (h1.2.1 hx), ?_⟩
    intro r hr
    rcases List.mem_append.mp hr with hl | hrr
    · exact h2.2.1 (h1.2.2 r hl)
    · exact h2.2.2 r hrr
theorem collectRefsList_spec (l : List OASchema)
    (st : List String × List String) (hInv : collectInv st) :
    collectInv (collectRefsList l st) ∧ st.2 ⊆ (collectRefsList l st).2 ∧
      ∀ r ∈ subRefsList l, extractRefName r ∈ (collectRefsList l st).2 := by
  match l with
  | [] =>
    simp only [collectRefsList, subRefsList]
    exact ⟨hInv, fun x hx => hx, by simp⟩
  | s :: rest =>
    have h1 := collectRefs_spec s st hInv
    have h2 := collectRefsList_spec rest (collectRefs s st) h1.1
    simp only [collectRefsList, subRefsList]
    refine ⟨h2.1, fun x hx => h2.2.1 (h1.2.1 hx), ?_⟩
    intro r hr
    rcases List.mem_append.mp hr with hl | hrr
    · exact h2.2.1 (h1.2.2 r hl)
    · exact h2.2.2 r hrr
end

theorem collectTop_mono (s : OASchema) (used : List String) : used ⊆ collectTop s used :=
  (collectRefs_spec s ([], used) (fun r hr => absurd hr (List.not_mem_nil r))).2.1

theorem collectTop_covers (s : OASchema) (used : List String) (r : String)
    (hr : r ∈ subRefs s) : extractRefName r ∈ collectTop s used :=
  (collectRefs_spec s ([], used) (fun r' hr' => absurd hr' (List.not_mem_nil r'))).2.2 r hr

theorem foldl_strSet_mono (step : List String → α → List String)
    (hstep : ∀ u a, u ⊆ step u a) (l : List α) (u : List String) :
    u ⊆ l.foldl step u := by
  induction l generalizing u with
  | nil => exact fun x hx => hx
  | cons a as ih => exact fun x hx => ih (step u a) (hstep u a hx)

theorem foldl_strSet_reaches (step : List String → α → List String)
    (hstep : ∀ u a, u ⊆ step u a) (x : String) (a : α)
    (hx : ∀ u, x ∈ step u a) (l : List α) (u : List String) (ha : a ∈ l) :
    x ∈ l.foldl step u := by
  induction l generalizing u with
  | nil => exact absurd ha (List.not_mem_nil a)
  | cons b bs ih =>
    rcases List.mem_cons.mp ha with rfl | hmem
    · exact foldl_strSet_mono step hstep bs (step u a) (hx u)
    · exact ih (step u b) hmem

theorem respCollect_mono (u : List String) (cr : String × OAResponse) :
    u ⊆ respCollect u cr := by
  unfold respCollect
  match cr.2.json with
  | some (some s) => exact collectTop_mono s u
  | some none => exact fun _ hx => hx
  | none => exact fun _ hx => hx

theorem usedNamesOfOp_mono (op : Operation) (u : List String) : u ⊆ usedNamesOfOp op u := by
  unfold usedNamesOfOp
  have h1 : u ⊆ (match op.requestJson with
      | some (some s) => collectTop s u
      | _ => u) := by
    match op.requestJson with
    | some (some s) => exact collectTop_mono s u
    | some none => exact fun _ hx => hx
    | none => exact fun _ hx => hx
  exact fun _ hx => foldl_strSet_mono respCollect respCollect_mono _ _ (h1 hx)

theorem usedNamesOfOp_covers (op : Operation) (u : List String)
    (resps : List (String × OAResponse)) (hresps : op.responses = some resps)
    (cr : String × OAResponse) (hcr : cr ∈ resps) (s : OASchema)
    (hjson : cr.2.json = some (some s)) (r : String) (hr : r ∈ subRefs s) :
    extractRefName r ∈ usedNamesOfOp op u := by
  unfold usedNamesOfOp
  rw [hresps, Option.getD_some]
  apply foldl_strSet_reaches respCollect respCollect_mono _ cr _ _ _ hcr
  intro u'
  unfold respCollect
  rw [hjson]
  exact collectTop_covers s u' r hr

theorem usedNames_covers (ops : List Operation) (op : Operation) (hop : op ∈ ops)
    (resps : List (String × OAResponse)) (hresps : op.responses = some resps)
    (cr : String × OAResponse) (hcr : cr ∈ resps) (s : OASchema)
    (hjson : cr.2.json = some (some s)) (r : String) (hr : r ∈ subRefs s) :
    extractRefName r ∈ usedNames ops := by
  unfold usedNames
  apply foldl_strSet_reaches (fun u op => usedNamesOfOp op u)
    (fun u a => usedNamesOfOp_mono a u) _ op _ _ _ hop
  intro u
  exact usedNamesOfOp_covers op u resps hresps cr hcr s hjson r hr

theorem orO_eq_some (a b : Option α) (x : α) (h : orO a b = some x) :
    a = some x ∨ (a = none ∧ b = some x) := by
  cases a with
  | some y => exact Or.inl h
  | none => exact Or.inr ⟨rfl, h⟩

theorem findSome?_source (f : α → Option β) (l : List α) (b : β)
    (h : l.findSome? f = some b) : ∃ a ∈ l, f a = some b := by
  induction l with
  | nil => exact Option.noConfusion h
  | cons a as ih =>
    rw [List.findSome?] at h
    match hfa : f a with
    | some b0 =>
      rw [hfa] at h
      injection h with h
      subst h
      exact ⟨a, by simp, hfa⟩
    | none =>
      rw [hfa] at h
      obtain ⟨a', ha', hfa'⟩ := ih h
      exact ⟨a', by simp [ha'], hfa'⟩

theorem extractSchemaFromRef_some (s? : Option OASchema) (n : String)
    (h : extractSchemaFromRef s? = some n) :
    ∃ r, s? = some (.ref r) ∧ n = extractRefName r := by
  match s? with
  | some (.ref r) =>
    refine ⟨r, rfl, ?_⟩
    injection h with h
    exact h.symm
  | none => exact Option.noConfusion h
  | some (.str a b c) => exact Option.noConfusion h
  | some (.num a b c d) => exact Option.noConfusion h
  | some (.boolS a) => exact Option.noConfusion h
  | some (.arr a b) => exact Option.noConfusion h
  | some (.obj a b c d) => exact Option.noConfusion h
  | some (.oneOfS a) => exact Option.noConfusion h
  | some (.anyOfS a) => exact Option.noConfusion h
  | some (.allOfS a) => exact Option.noConfusion h
  | some .untyped => exact Option.noConfusion h

theorem extractSchemaFromArray_some (s? : Option OASchema) (n : String)
    (h : extractSchemaFromArray s? = some n) :
    ∃ r ro, s? = some (.arr (some (.ref r)) ro) ∧ n = extractRefName r := by
  match s? with
  | some (.arr items ro) =>
    match items with
    | some it =>
      obtain ⟨r, hit, hn⟩ := extractSchemaFromRef_some (some it) n h
      injection hit with hit
      subst hit
      exact ⟨r, ro, rfl, hn⟩
    | none => exact Option.noConfusion h
  | none => exact Option.noConfusion h
  | some (.ref a) => exact Option.noConfusion h
  | some (.str a b c) => exact Option.noConfusion h
  | some (.num a b c d) => exact Option.noConfusion h
  | some (.boolS a) => exact Option.noConfusion h
  | some (.obj a b c d) => exact Option.noConfusion h
  | some (.oneOfS a) => exact Option.noConfusion h
  | some (.anyOfS a) => exact Option.noConfusion h
  | some (.allOfS a) => exact Option.noConfusion h
  | some .untyped => exact Option.noConfusion h

theorem subRefs_mem_of_mem_list (x : OASchema) (ms : List OASchema) (hx : x ∈ ms)
    (r : String) (hr : r ∈ subRefs x) : r ∈ subRefsList ms := by
  induction ms with
  | nil => exact absurd hx (List.not_mem_nil x)
  | cons m rest ih =>
    show r ∈ subRefs m ++ subRefsList rest
    rcases List.mem_cons.mp hx with rfl | hmem
    · exact List.mem_append.mpr (Or.inl hr)
    · exact List.mem_append.mpr (Or.inr (ih hmem))

theorem extractSchemaFromUnion_mem (s? : Option OASchema) (n : String)
    (h : n ∈ extractSchemaFromUnion s?) :
    ∃ s, s? = some s ∧ ∃ r, r ∈ subRefs s ∧ extractRefName r = n := by
  match s? with
  | some (.oneOfS ms) =>
    simp only [extractSchemaFromUnion] at h
    rcases List.mem_filterMap.mp h with ⟨m, hm, hext⟩
    obtain ⟨r, hmr, hn⟩ := extractSchemaFromRef_some (some m) n hext
    injection hmr with hmr
    subst hmr
    refine ⟨.oneOfS ms, rfl, r, ?_, hn.symm⟩
    show r ∈ subRefsList ms
    exact subRefs_mem_of_mem_list (.ref r) ms hm r (by simp [subRefs])
  | some (.anyOfS ms) =>
    simp only [extractSchemaFromUnion] at h
    rcases List.mem_filterMap.mp h with ⟨m, hm, hext⟩
    obtain ⟨r, hmr, hn⟩ := extractSchemaFromRef_some (some m) n hext
    injection hmr with hmr
    subst hmr
    refine ⟨.anyOfS ms, rfl, r, ?_, hn.symm⟩
    show r ∈ subRefsList ms
    exact subRefs_mem_of_mem_list (.ref r) ms hm r (by simp [subRefs])
  | none => exact absurd h (by simp [extractSchemaFromUnion])
  | some (.ref a) => exact absurd h (by simp [extractSchemaFromUnion])
  | some (.str a b c) => exact absurd h (by simp [extractSchemaFromUnion])
  | some (.num a b c d) => exact absurd h (by simp [extractSchemaFromUnion])
  | some (.boolS a) => exact absurd h (by simp [extractSchemaFromUnion])
  | some (.arr a b) => exact absurd h (by simp [extractSchemaFromUnion])
  | some (.obj a b c d) => exact absurd h (by simp [extractSchemaFromUnion])
  | some (.allOfS a) => exact absurd h (by simp [extractSchemaFromUnion])
  | some .untyped => exact absurd h (by simp [extractSchemaFromUnion])

theorem tryChecks_some (schemas : List ConvertedSchema) (s? : Option OASchema)
    (name : String) (h : tryChecks schemas s? = some name) :
    hasName schemas name = true ∧
      ∃ s, s? = some s ∧ ∃ r, r ∈ subRefs s ∧ extractRefName r = name := by
  unfold tryChecks at h
  rcases orO_eq_some _ _ _ h with h1 | ⟨_, h2⟩
  · match hext : extractSchemaFromRef s? with
    | none => rw [hext] at h1; exact Option.noConfusion h1
    | some n0 =>
      rw [hext] at h1
      simp only [Option.bind] at h1
      by_cases hh : hasName schemas n0 = true
      · rw [if_pos hh] at h1
        injection h1 with h1
        subst h1
        obtain ⟨r, hs, hn⟩ := extractSchemaFromRef_some s? n0 hext
        exact ⟨hh, .ref r, hs, r, by simp [subRefs], hn.symm⟩
      · rw [if_neg hh] at h1
        exact Option.noConfusion h1
  · rcases orO_eq_some _ _ _ h2 with h3 | ⟨_, h4⟩
    · match hext : extractSchemaFromArray s? with
      | none => rw [hext] at h3; exact Option.noConfusion h3
      | some n0 =>
        rw [hext] at h3
        simp only [Option.bind] at h3
        by_cases hh : hasName schemas n0 = true
        · rw [if_pos hh] at h3
          injection h3 with h3
          subst h3
          obtain ⟨r, ro, hs, hn⟩ := extractSchemaFromArray_some s? n0 hext
          exact ⟨hh, .arr (some (.ref r)) ro, hs, r, by simp [subRefs], hn.symm⟩
        · rw [if_neg hh] at h3
          exact Option.noConfusion h3
    · have hmem := List.mem_of_find?_eq_some h4
      have hname := List.find?_some h4
      obtain ⟨s, hs, r, hr, hn⟩ := extractSchemaFromUnion_mem s? name hmem
      exact ⟨by simpa using hname, s, hs, r, hr, hn⟩

theorem findPrimary_single (op : Operation) (schemas : List ConvertedSchema) (name : String)
    (h : findPrimarySchemaForResource [op] schemas = some name) :
    hasName schemas name = true ∧
      ∃ resps, op.responses = some resps ∧ ∃ cr ∈ resps, ∃ s,
        cr.2.json = some (some s) ∧ ∃ r ∈ subRefs s, extractRefName r = name := by
  have h' : primaryFromOp schemas op = some name := by
    unfold findPrimarySchemaForResource at h
    rcases orO_eq_some _ _ _ h with h1 | ⟨_, h2⟩
    · exact h1
    · rw [show findPrimarySchemaForResource [] schemas = (none : Option String) from rfl] at h2
      exact Option.noConfusion h2
  unfold primaryFromOp at h'
  match hresp : op.responses with
  | none =>
    rw [hresp] at h'
    exact Option.noConfusion h'
  | some resps =>
    rw [hresp] at h'
    dsimp only at h'
    rcases orO_eq_some _ _ _ h' with h200 | ⟨_, hfb⟩
    · unfold jsonTry at h200
      match hj : respJson resps "200" with
      | none =>
        rw [hj] at h200
        exact Option.noConfusion h200
      | some s? =>
        rw [hj] at h200
        dsimp only at h200
        obtain ⟨hhas, s, hs?, r, hr, hn⟩ := tryChecks_some schemas s? name h200
        subst hs?
        unfold respJson at hj
        match hfind : resps.find? (fun e => e.1 = "200") with
        | none =>
          rw [hfind] at hj
          exact Option.noConfusion hj
        | some e =>
          rw [hfind] at hj
          dsimp only at hj
          exact ⟨hhas, resps, rfl, e, List.mem_of_find?_eq_some hfind, s, hj, r, hr, hn⟩
    · obtain ⟨e, he, hfe⟩ := findSome?_source _ resps name hfb
      by_cases hg : (strStarts e.1 "2" && e.1 != "200") = true
      · rw [if_pos hg] at hfe
        unfold jsonTry at hfe
        match hj : e.2.json with
        | none =>
          rw [hj] at hfe
          exact Option.noConfusion hfe
        | some s? =>
          rw [hj] at hfe
          dsimp only at hfe
          obtain ⟨hhas, s, hs?, r, hr, hn⟩ := tryChecks_some schemas s? name hfe
          subst hs?
          exact ⟨hhas, resps, rfl, e, he, s, hj, r, hr, hn⟩
      · rw [if_neg hg] at hfe
        exact Option.noConfusion hfe

/-! ### Claim C9: resource-module schema imports versus emitted schemas

`getSchemaImports` builds a `Set` of import lines, one per schema name that
`findPrimarySchemaForResource([operation], schemas)` yields for an operation
with a JSON response or a JSON request body.  We model the set of underlying
schema names (the import line is a rendering of the name); `insertName` models
`Set.add` insertion order. -/

/-- One response's contribution in `getSchemaImports`: when the
`application/json` entry with a `schema` field exists, add the primary-schema
name of the singleton operation list, if any. -/
def importRespStep (schemas : List ConvertedSchema) (op : Operation)
    (a : List String) (cr : String × OAResponse) : List String :=
  match cr.2.json with
  | some (some _) =>
    match findPrimarySchemaForResource [op] schemas with
    | some n => insertName a n
    | none => a
  | _ => a

/-- The request-body contribution in `getSchemaImports`: when `requestBody`,
its `content` and its `application/json` entry exist (the `schema` field is
not checked here), add the primary-schema name of the singleton operation
list, if any. -/
def importReqStep (schemas : List ConvertedSchema) (op : Operation)
    (a : List String) : List String :=
  match op.requestJson with
  | some _ =>
    match findPrimarySchemaForResource [op] schemas with
    | some n => insertName a n
    | none => a
  | none => a

/-- One operation's contribution in `getSchemaImports`: every response first,
then the request body. -/
def importOpStep (schemas : List ConvertedSchema) (a : List String)
    (op : Operation) : List String :=
  importReqStep schemas op
    (match op.responses with
     | some resps => resps.foldl (importRespStep schemas op) a
     | none => a)

/-- `generator.ts` `getSchemaImports`, at the level of schema names: the set of
names for which an import line is rendered into the resource module. -/
def getSchemaImportNames (operations : List Operation)
    (schemas : List ConvertedSchema) : List String :=
  operations.foldl (importOpStep schemas) []

theorem mem_insertName (u : List String) (n x : String) (h : x ∈ insertName u n) :
    x ∈ u ∨ x = n := by
  unfold insertName at h
  by_cases hc : u.contains n = true
  · rw [if_pos hc] at h
    exact Or.inl h
  · rw [if_neg hc] at h
    rcases List.mem_append.mp h with h1 | h1
    · exact Or.inl h1
    · exact Or.inr (List.mem_singleton.mp h1)

theorem foldl_mem_source (step : List String → α → List String) (P : α → String → Prop)
    (hstep : ∀ u a x, x ∈ step u a → x ∈ u ∨ P a x) (l : List α) (u : List String)
    (x : String) (h : x ∈ l.foldl step u) : x ∈ u ∨ ∃ a ∈ l, P a x := by
  induction l generalizing u with
  | nil => exact Or.inl h
  | cons b bs ih =>
    rcases ih (step u b) h with h1 | ⟨a, ha, hp⟩
    · rcases hstep u b x h1 with h2 | h2
      · exact Or.inl h2
      · exact Or.inr ⟨b, by simp, h2⟩
    · exact Or.inr ⟨a, by simp [ha], hp⟩

theorem importRespStep_source (schemas : List ConvertedSchema) (op : Operation)
    (a : List String) (cr : String × OAResponse) (x : String)
    (h : x ∈ importRespStep schemas op a cr) :
    x ∈ a ∨ findPrimarySchemaForResource [op] schemas = some x := by
  unfold importRespStep at h
  match hj : cr.2.json with
  | some (some s) =>
    rw [hj] at h
    dsimp only at h
    match hf : findPrimarySchemaForResource [op] schemas with
    | some n =>
      rw [hf] at h
      rcases mem_insertName a n x h with h1 | rfl
      · exact Or.inl h1
      · exact Or.inr rfl
    | none =>
      rw [hf] at h
      exact Or.inl h
  | some none =>
    rw [hj] at h
    exact Or.inl h
  | none =>
    rw [hj] at h
    exact Or.inl h

theorem importReqStep_source (schemas : List ConvertedSchema) (op : Operation)
    (a : List String) (x : String) (h : x ∈ importReqStep schemas op a) :
    x ∈ a ∨ findPrimarySchemaForResource [op] schemas = some x := by
  unfold importReqStep at h
  match hj : op.requestJson with
  | some s? =>
    rw [hj] at h
    dsimp only at h
    match hf : findPrimarySchemaForResource [op] schemas with
    | some n =>
      rw [hf] at h
      rcases mem_insertName a n x h with h1 | rfl
      · exact Or.inl h1
      · exact Or.inr rfl
    | none =>
      rw [hf] at h
      exact Or.inl h
  | none =>
    rw [hj] at h
    exact Or.inl h

theorem importOpStep_source (schemas : List ConvertedSchema) (a : List String)
    (op : Operation) (x : String) (h : x ∈ importOpStep schemas a op) :
    x ∈ a ∨ findPrimarySchemaForResource [op] schemas = some x := by
  unfold importOpStep at h
  rcases importReqStep_source schemas op _ x h with h1 | h1
  · match hresp : op.responses with
    | some resps =>
      rw [hresp] at h1
      rcases foldl_mem_source (importRespStep schemas op)
          (fun _ y => findPrimarySchemaForResource [op] schemas = some y)
          (fun u cr y hy => importRespStep_source schemas op u cr y hy)
          resps a x h1 with h2 | ⟨_, _, h2⟩
      · exact Or.inl h2
      · exact Or.inr h2
    | none =>
      rw [hresp] at h1
      exact Or.inl h1
  · exact Or.inr h1

theorem getSchemaImportNames_mem (operations : List Operation)
    (schemas : List ConvertedSchema) (x : String)
    (h : x ∈ getSchemaImportNames operations schemas) :
    ∃ op ∈ operations, findPrimarySchemaForResource [op] schemas = some x := by
  unfold getSchemaImportNames at h
  rcases foldl_mem_source (importOpStep schemas)
      (fun op y => findPrimarySchemaForResource [op] schemas = some y)
      (fun u op y hy => importOpStep_source schemas u op y hy)
      operations [] x h with h1 | h1
  · exact absurd h1 (List.not_mem_nil x)
  · exact h1

theorem hasName_exists (schemas : List ConvertedSchema) (n : String)
    (h : hasName schemas n = true) : ∃ cs ∈ schemas, cs.name = n := by
  unfold hasName at h
  simpa using h

/-- C9: every schema name that `getSchemaImports` renders into a resource
module's import lines (from a sublist of the run's operations) names a schema
kept by `findUsedSchemas` for that run, so the imported schema file is among
the emitted ones. -/
theorem c9_imports_are_emitted (ops rops : List Operation) (schemas : List ConvertedSchema)
    (name : String) (hsub : ∀ op ∈ rops, op ∈ ops)
    (hmem : name ∈ getSchemaImportNames rops schemas) :
    name ∈ (findUsedSchemas ops schemas).map (fun cs => cs.name) := by
  obtain ⟨op, hop, hprim⟩ := getSchemaImportNames_mem rops schemas name hmem
  obtain ⟨hhas, resps, hresps, cr, hcr, s, hjson, r, hr, hn⟩ :=
    findPrimary_single op schemas name hprim
  have hused : name ∈ usedNames ops := by
    rw [← hn]
    exact usedNames_covers ops op (hsub op hop) resps hresps cr hcr s hjson r hr
  obtain ⟨cs, hcs, hcsn⟩ := hasName_exists schemas name hhas
  refine List.mem_map.mpr ⟨cs, ?_, hcsn⟩
  unfold findUsedSchemas
  refine List.mem_filter.mpr ⟨hcs, ?_⟩
  rw [hcsn]
  exact List.elem_iff.mpr hused

/-- Concrete run for C9: the one-operation resource whose imports mention
`Widget`, which `findUsedSchemas` indeed keeps. -/
theorem c9_witness :
    (∀ op ∈ [opC5], op ∈ [opC5]) ∧
      "Widget" ∈ getSchemaImportNames [opC5] schemasC5 ∧
      "Widget" ∈ (findUsedSchemas [opC5] schemasC5).map (fun cs => cs.name) :=
  ⟨fun _ h => h, by decide,
    c9_imports_are_emitted [opC5] [opC5] schemasC5 "Widget" (fun _ h => h) (by decide)⟩

/-! ## Claim C7: unresolved `$ref` targets

Two translators exist.  `schema-converter.ts` (`convertSchemaToZod` and its
helpers) threads a `processed` set and an `options.warnings` array — the entry
point `convertOpenAPISchemasToZod` always supplies the array, so the
`if (options.warnings)` guards are taken.  The generator pipeline's own
translator `convertZodToOpenAPI` (embedded above) has no warning log at all:
its unresolved-`$ref` branch returns the permissive
`z.lazy(() => z.object(\x7b\x7d).passthrough())` placeholder and nothing is
recorded anywhere.  Warning messages are modelled by their wording with the
quote characters elided. -/

/-- The mutable conversion state of `schema-converter.ts`: the `processed` set
and the `options.warnings` array. -/
structure SCState where
  processed : List String
  warnings : List String

/-- `processed.add(name)` at the top of `convertSchemaToZod`. -/
def markProcessed (name : String) (st : SCState) : SCState :=
  ⟨name :: st.processed, st.warnings⟩

/-- The warning pushed for an unresolved top-level `$ref` in
`convertSchemaToZod`. -/
def refWarningSC (refName : String) : String :=
  "Warning: Schema " ++ refName ++ " not found. Using z.any()."

/-- The warning pushed for an unresolved `$ref` in an object property in
`convertObjectSchema`. -/
def propWarningSC (refName propName : String) : String :=
  "Warning: Schema " ++ refName ++ " referenced by " ++ propName ++
    " not found. Using z.any()."

/-- `convertStringSchema`'s `format` switch.  Note `date` maps to
`z.string().datetime()` here (the generator's translator maps it to a date
regex instead). -/
def strCheckOfFormatSC : Option String → Option StrCheck
  | some "email" => some .email
  | some "uri" => some .url
  | some "date" => some .datetime
  | some "date-time" => some .datetime
  | some "uuid" => some .uuid
  | some "ipv4" => some .ipv4
  | some "ipv6" => some .ipv6
  | _ => none

/-- `convertEnumSchema`: one value is a literal, several a union of literals,
none the `z.string()` fallback. -/
def convertEnumSchemaSC : List String → ZodTy
  | [] => .zstring none
  | [v] => .zliteral v
  | vs => .zunion (vs.map .zliteral)

/-- `convertObjectSchema`'s readonly heuristic under the default options
(`detectReadonly` is not `false`): the `readOnly` flag, the well-known
timestamp/id property names, or an `Id` suffix other than `authorId` and
`userId`.  (The `x-readonly` extension is outside the embedded schema
model.) -/
def scPropReadonly (propName : String) (propSchema : OASchema) : Bool :=
  oaReadOnly propSchema ||
    (propName == "id" || propName == "createdAt" || propName == "updatedAt" ||
      propName == "created_at" || propName == "updated_at") ||
    (strEnds propName "Id" && !(propName == "authorId") && !(propName == "userId"))

/-- `convertObjectSchema`'s `required` remap: only when a non-empty `required`
list is present are the unlisted properties wrapped in `.optional()`; with no
`required` list every property stays required. -/
def applyRequiredSC (shape : List (String × ZodTy)) : Option (List String) → List (String × ZodTy)
  | some req =>
    if req.isEmpty then shape
    else shape.map (fun kp => if req.contains kp.1 then kp else (kp.1, .zoptional kp.2))
  | none => shape

mutual
/-- `schema-converter.ts` `convertSchemaToZod`, fuelled on call depth (`none`
models a call tree deeper than the fuel).  Inner `none` models the source's
`null` return for an already-processed name; every arm returns a value — the
function raises no error on unresolved references. -/
def convertSchemaToZodSC : Nat → String → OASchema → List (String × OASchema) → SCState →
    Option (Option ZodTy × SCState)
  | 0, _, _, _, _ => none
  | fuel + 1, name, schema, allSchemas, st =>
    if st.processed.contains name then some (none, st)
    else
      match schema with
      | .ref r =>
        match lookupRaw allSchemas (extractRefNameSC r) with
        | some refSchema =>
          match convertSchemaToZodSC fuel (extractRefNameSC r) refSchema allSchemas
              (markProcessed name st) with
          | none => none
          | some (some z, st2) => some (some z, st2)
          | some (none, st2) => some (some .zany, st2)
        | none =>
          some (some .zany,
            ⟨name :: st.processed, st.warnings ++ [refWarningSC (extractRefNameSC r)]⟩)
      | .str fmt enumVals _ =>
        match enumVals with
        | some vs => some (some (convertEnumSchemaSC vs), markProcessed name st)
        | none => some (some (.zstring (strCheckOfFormatSC fmt)), markProcessed name st)
      | .num isInt lo hi _ => some (some (.znumber isInt lo hi), markProcessed name st)
      | .boolS _ => some (some .zboolean, markProcessed name st)
      | .arr items _ =>
        match items with
        | none => some (some (.zarray .zany), markProcessed name st)
        | some (.ref r) =>
          match lookupRaw allSchemas (extractRefNameSC r) with
          | some refSchema =>
            match convertSchemaToZodSC fuel (extractRefNameSC r) refSchema allSchemas
                (markProcessed name st) with
            | none => none
            | some (res, st2) => some (some (.zarray (res.getD .zany)), st2)
          | none => some (some (.zarray .zany), markProcessed name st)
        | some it =>
          match convertSchemaToZodSC fuel "array_item" it allSchemas
              (markProcessed name st) with
          | none => none
          | some (res, st2) => some (some (.zarray (res.getD .zany)), st2)
      | .obj props req addP _ =>
        match convertPropsSC fuel (props.getD []) allSchemas (markProcessed name st) with
        | none => none
        | some (shape, st2) =>
          match addP with
          | some (some (.ref _)) => some (some (.zobject (applyRequiredSC shape req) false none), st2)
          | some (some addS) =>
            match convertSchemaToZodSC fuel "additional" addS allSchemas st2 with
            | none => none
            | some (some za, st3) =>
              some (some (.zobject (applyRequiredSC shape req) false (some za)), st3)
            | some (none, st3) =>
              some (some (.zobject (applyRequiredSC shape req) false none), st3)
          | _ => some (some (.zobject (applyRequiredSC shape req) false none), st2)
      | .oneOfS ms =>
        match convertUnionListSC fuel "union_item" ms allSchemas (markProcessed name st) with
        | none => none
        | some (zs, st2) => some (some (mkUnion zs), st2)
      | .anyOfS ms =>
        match convertUnionListSC fuel "union_item" ms allSchemas (markProcessed name st) with
        | none => none
        | some (zs, st2) => some (some (mkUnion zs), st2)
      | .allOfS ms =>
        match convertUnionListSC fuel "intersection_item" ms allSchemas
            (markProcessed name st) with
        | none => none
        | some (zs, st2) => some (some (mkIntersection zs), st2)
      | .untyped => some (some .zany, markProcessed name st)

/-- The property loop of `convertObjectSchema`, including the readonly
wrapping. -/
def convertPropsSC : Nat → List (String × OASchema) → List (String × OASchema) → SCState →
    Option (List (String × ZodTy) × SCState)
  | 0, _, _, _ => none
  | _ + 1, [], _, st => some ([], st)
  | fuel + 1, (pn, ps) :: rest, allSchemas, st =>
    match convertPropEntrySC fuel pn ps allSchemas st with
    | none => none
    | some (z, st2) =>
      match convertPropsSC fuel rest allSchemas st2 with
      | none => none
      | some (shape, st3) =>
        some ((pn, if scPropReadonly pn ps then ZodTy.zreadonly z else z) :: shape, st3)

/-- One property's converted schema in `convertObjectSchema`: an unresolved
property `$ref` becomes `z.any()` with a warning pushed; anything else
recurses (`converted?.schema || z.any()`). -/
def convertPropEntrySC : Nat → String → OASchema → List (String × OASchema) → SCState →
    Option (ZodTy × SCState)
  | 0, _, _, _, _ => none
  | fuel + 1, pn, .ref r, allSchemas, st =>
    match lookupRaw allSchemas (extractRefNameSC r) with
    | some refSchema =>
      match convertSchemaToZodSC fuel (extractRefNameSC r) refSchema allSchemas st with
      | none => none
      | some (res, st2) => some (res.getD .zany, st2)
    | none => some (.zany, ⟨st.processed, st.warnings ++ [propWarningSC (extractRefNameSC r) pn]⟩)
  | fuel + 1, pn, ps, allSchemas, st =>
    match convertSchemaToZodSC fuel (pn ++ "_prop") ps allSchemas st with
    | none => none
    | some (res, st2) => some (res.getD .zany, st2)

/-- The member loop shared by the `oneOf`/`anyOf`/`allOf` branches of
`convertUnionSchema`: each member contributes at most one converted schema. -/
def convertUnionListSC : Nat → String → List OASchema → List (String × OASchema) → SCState →
    Option (List ZodTy × SCState)
  | 0, _, _, _, _ => none
  | _ + 1, _, [], _, st => some ([], st)
  | fuel + 1, itemName, m :: rest, allSchemas, st =>
    match convertUnionMemberSC fuel itemName m allSchemas st with
    | none => none
    | some (contrib, st2) =>
      match convertUnionListSC fuel itemName rest allSchemas st2 with
      | none => none
      | some (zs, st3) => some (contrib.toList ++ zs, st3)

/-- One union/intersection member: a member whose `$ref` target is missing is
skipped outright — no placeholder in the member list and no warning. -/
def convertUnionMemberSC : Nat → String → OASchema → List (String × OASchema) → SCState →
    Option (Option ZodTy × SCState)
  | 0, _, _, _, _ => none
  | fuel + 1, _, .ref r, allSchemas, st =>
    match lookupRaw allSchemas (extractRefNameSC r) with
    | some refSchema => convertSchemaToZodSC fuel (extractRefNameSC r) refSchema allSchemas st
    | none => some (none, st)
  | fuel + 1, itemName, m, allSchemas, st =>
    convertSchemaToZodSC fuel itemName m allSchemas st
end

/-- `convertOpenAPISchemasToZod`: run every named schema through the
converter, threading the `processed` set and `warnings`; a `null` result adds
no entry, and a thrown conversion error is caught (non-strict mode) and the
schema skipped. -/
def convertAllSC (fuel : Nat) (table : List (String × OASchema)) :
    List (String × ZodTy) × SCState :=
  table.foldl (fun acc nr =>
    match convertSchemaToZodSC fuel nr.1 nr.2 table acc.2 with
    | none => acc
    | some (none, st2) => (acc.1, st2)
    | some (some z, st2) => (acc.1 ++ [(nr.1, z)], st2)) ([], ⟨[], []⟩)

/-- The C7 failing input: one schema whose array `items` is a `$ref` to a name
absent from the table. -/
def tableC7 : List (String × OASchema) :=
  [("Widget", .arr (some (.ref "#/components/schemas/Missing")) false)]

/-- **C7** (counterexample).  On a schema whose array `items` `$ref` target
`Missing` is absent from the table, conversion returns normally (no error)
and substitutes the `z.any()` item placeholder — but the run's warning log
stays empty, although the claim requires a warning for every unresolved
reference. -/
theorem c7_counterexample :
    lookupRaw tableC7 "Missing" = none ∧
      convertAllSC 100 tableC7 = ([("Widget", .zarray .zany)], ⟨["Widget"], []⟩) :=
  ⟨rfl, rfl⟩

/-- **C7** (amended).  An unresolved `$ref` never raises: every branch returns
a value.  But only the top-level branch of `convertSchemaToZod` (and the
object-property branch, `convertPropEntrySC`) append a warning; an unresolved
`$ref` in array `items` silently becomes a `z.any()` item, an unresolved union
member is silently dropped, and the generator pipeline's own translator
`convertZodToOpenAPI` — which has no warning log at all — silently substitutes
the permissive lazy passthrough object. -/
theorem c7_amended (fuel : Nat) (name r : String) (allSchemas : List (String × OASchema))
    (st : SCState) (hmiss : lookupRaw allSchemas (extractRefNameSC r) = none)
    (hmissG : lookupRaw allSchemas (extractRefName r) = none)
    (hnew : st.processed.contains name = false) :
    convertSchemaToZodSC (fuel + 1) name (.ref r) allSchemas st =
        some (some .zany,
          ⟨name :: st.processed, st.warnings ++ [refWarningSC (extractRefNameSC r)]⟩) ∧
      (∀ ro, convertSchemaToZodSC (fuel + 1) name (.arr (some (.ref r)) ro) allSchemas st =
        some (some (.zarray .zany), ⟨name :: st.processed, st.warnings⟩)) ∧
      (∀ itemName, convertUnionMemberSC (fuel + 1) itemName (.ref r) allSchemas st =
        some (none, st)) ∧
      (∀ ro, convertZodToOpenAPI (fuel + 1) (some (.ref r)) allSchemas ro =
        some (.zlazy (.zobject [] true none))) := by
  refine ⟨?_, ?_, ?_, ?_⟩
  · simp only [convertSchemaToZodSC, hnew, hmiss, Bool.false_eq_true, if_false]
  · intro ro
    simp only [convertSchemaToZodSC, hnew, hmiss, Bool.false_eq_true, if_false, markProcessed]
  · intro itemName
    simp only [convertUnionMemberSC, hmiss]
  · intro ro
    simp only [convertZodToOpenAPI, hmissG]

/-- Concrete instance of the amended C7 statement at an empty schema table:
the top-level branch warns, the union-member branch silently skips. -/
theorem c7_witness :
    convertSchemaToZodSC 6 "A" (.ref "#/components/schemas/Missing") [] ⟨[], []⟩ =
        some (some .zany, ⟨["A"], [refWarningSC "Missing"]⟩) ∧
      convertUnionMemberSC 6 "union_item" (.ref "#/components/schemas/Missing") [] ⟨[], []⟩ =
        some (none, ⟨[], []⟩) := by
  have h := c7_amended 5 "A" "#/components/schemas/Missing" [] ⟨[], []⟩ rfl rfl rfl
  exact ⟨h.1, h.2.2.1 "union_item"⟩
